import Mathlib

/-!
Verification of the `fsds` review-email scripts.

This file gives a shallow embedding, in Lean 4, of the two Python scripts
`write_review_email.py` and `write_approved_email.py`:

* the proleptic Gregorian calendar fragment used by `calculate_review_deadline`
  (Python `datetime` day arithmetic, `weekday()`, `strftime("%A %B %d")`),
* the text pipeline of `generate_review_email_html` (`html.escape`, the
  leading-space to `&nbsp;` conversion, the two `re.sub` markdown rewrites,
  the newline to `<br>` rewrite, and the fixed HTML shell),
* the Jinja2 variable substitution used to fill the e-mail template,
* the error/exit behaviour of both `main` functions, with external effects
  (Jira lookup, file existence, JSON decoding) passed in as data.

Scanners that are not structurally recursive in the Python source (the
regex rewrites, the template filler) are written with an explicit fuel
argument so that every definition computes by kernel reduction; a fuel
irrelevance lemma recovers the natural recursion equations.
-/

namespace Fsds

/-! ## Calendar model (Python `datetime` fragment)

A date is a (year, month, day) triple, proleptic Gregorian, year ≥ 1,
exactly the value space `datetime.date` exposes to the script. -/

structure Date where
  year : Nat
  month : Nat
  day : Nat
deriving DecidableEq, Repr

/-- Python `calendar.isleap` / the Gregorian leap rule used by `datetime`. -/
def isLeap (y : Nat) : Bool :=
  y % 4 == 0 && (y % 100 != 0 || y % 400 == 0)

/-- Number of days in month `m` of year `y` (`m` between 1 and 12). -/
def daysInMonth (y m : Nat) : Nat :=
  match m with
  | 1 => 31 | 2 => if isLeap y then 29 else 28 | 3 => 31
  | 4 => 30 | 5 => 31 | 6 => 30 | 7 => 31 | 8 => 31
  | 9 => 30 | 10 => 31 | 11 => 30 | 12 => 31
  | _ => 0

/-- Days in year `y` strictly before month `m`. -/
def daysBeforeMonth (y m : Nat) : Nat :=
  (match m with
   | 1 => 0 | 2 => 31 | 3 => 59 | 4 => 90 | 5 => 120 | 6 => 151
   | 7 => 181 | 8 => 212 | 9 => 243 | 10 => 273 | 11 => 304 | 12 => 334
   | _ => 0)
  + (if 3 ≤ m ∧ m ≤ 12 ∧ isLeap y then 1 else 0)

/-- Days before January 1 of year `y` (proleptic Gregorian, as in
`datetime.date.toordinal`). -/
def daysBeforeYear (y : Nat) : Nat :=
  365 * (y - 1) + (y - 1) / 4 - (y - 1) / 100 + (y - 1) / 400

/-- The proleptic Gregorian ordinal of a date: `Date 1 1 1` has ordinal 1,
matching Python `datetime.date.toordinal`. -/
def toOrdinal (d : Date) : Nat :=
  daysBeforeYear d.year + daysBeforeMonth d.year d.month + d.day

/-- Python `datetime.weekday()`: Monday = 0 … Sunday = 6.
January 1 of year 1 is a Monday in the proleptic Gregorian calendar. -/
def weekday (d : Date) : Nat :=
  (toOrdinal d + 6) % 7

/-- `current_date + timedelta(days=1)` on the (year, month, day) view. -/
def nextDay (d : Date) : Date :=
  if d.day < daysInMonth d.year d.month then ⟨d.year, d.month, d.day + 1⟩
  else if d.month < 12 then ⟨d.year, d.month + 1, 1⟩
  else ⟨d.year + 1, 1, 1⟩

/-- The dates `datetime` actually represents. -/
def ValidDate (d : Date) : Prop :=
  1 ≤ d.year ∧ 1 ≤ d.month ∧ d.month ≤ 12 ∧ 1 ≤ d.day ∧ d.day ≤ daysInMonth d.year d.month

instance (d : Date) : Decidable (ValidDate d) := by
  unfold ValidDate; infer_instance

/-! ### Calendar lemmas -/

theorem daysInMonth_pos {y m : Nat} (h1 : 1 ≤ m) (h2 : m ≤ 12) : 1 ≤ daysInMonth y m := by
  interval_cases m <;> simp only [daysInMonth] <;> first
    | omega
    | (split <;> omega)

theorem valid_nextDay {d : Date} (h : ValidDate d) : ValidDate (nextDay d) := by
  obtain ⟨h1, h2, h3, h4, h5⟩ := h
  unfold nextDay ValidDate
  split <;> rename_i hd
  · simp only
    omega
  · split <;> rename_i hm
    · have : 1 ≤ daysInMonth d.year (d.month + 1) := daysInMonth_pos (by omega) (by omega)
      simp only
      omega
    · simp only
      refine ⟨by omega, by omega, by omega, by omega, ?_⟩
      simp [daysInMonth]

theorem daysBeforeMonth_succ {y m : Nat} (h1 : 1 ≤ m) (h2 : m ≤ 11) :
    daysBeforeMonth y (m + 1) = daysBeforeMonth y m + daysInMonth y m := by
  interval_cases m <;> cases hL : isLeap y <;>
    simp [daysBeforeMonth, daysInMonth, hL]

theorem daysBeforeYear_succ {y : Nat} (h : 1 ≤ y) :
    daysBeforeYear (y + 1) = daysBeforeYear y + 365 + (if isLeap y then 1 else 0) := by
  unfold daysBeforeYear isLeap
  have hy : y - 1 + 1 = y := by omega
  split <;> rename_i hIf
  · simp only [Bool.and_eq_true, beq_iff_eq, Bool.or_eq_true, bne_iff_ne] at hIf
    omega
  · simp only [Bool.and_eq_true, beq_iff_eq, Bool.or_eq_true, bne_iff_ne] at hIf
    push_neg at hIf
    rcases Nat.eq_zero_or_pos (y % 4) with h4 | h4
    · have h100 := hIf h4
      omega
    · omega

theorem toOrdinal_nextDay {d : Date} (h : ValidDate d) :
    toOrdinal (nextDay d) = toOrdinal d + 1 := by
  obtain ⟨h1, h2, h3, h4, h5⟩ := h
  unfold nextDay toOrdinal
  split
  · simp; omega
  · split <;> rename_i hdim hm
    · have hday : d.day = daysInMonth d.year d.month := by omega
      have := @daysBeforeMonth_succ d.year d.month h2 (by omega)
      simp only
      omega
    · have hm12 : d.month = 12 := by omega
      have hday : d.day = 31 := by
        rw [hm12] at h5 hdim; simp [daysInMonth] at h5 hdim; omega
      have hyd := @daysBeforeYear_succ d.year h1
      simp only
      rw [hm12, hday]
      cases hL : isLeap d.year <;>
        simp only [daysBeforeMonth, hL, hyd] <;> simp

theorem weekday_nextDay {d : Date} (h : ValidDate d) :
    weekday (nextDay d) = (weekday d + 1) % 7 := by
  unfold weekday
  rw [toOrdinal_nextDay h]
  omega

theorem weekday_lt_7 (d : Date) : weekday d < 7 := by
  unfold weekday; omega

/-! ## `calculate_review_deadline` (write_review_email.py, lines 164-183) -/

/-- `%A`: full weekday name, indexed by Python `weekday()` (Monday = 0). -/
def weekdayName : Nat → String
  | 0 => "Monday" | 1 => "Tuesday" | 2 => "Wednesday" | 3 => "Thursday"
  | 4 => "Friday" | 5 => "Saturday" | 6 => "Sunday" | _ => ""

/-- `%B`: full month name, indexed 1-12. -/
def monthName : Nat → String
  | 1 => "January" | 2 => "February" | 3 => "March" | 4 => "April"
  | 5 => "May" | 6 => "June" | 7 => "July" | 8 => "August"
  | 9 => "September" | 10 => "October" | 11 => "November" | 12 => "December"
  | _ => ""

/-- `%d`: day of month, zero-padded to two digits. -/
def pad2 (n : Nat) : String :=
  if n < 10 then "0" ++ Nat.repr n else Nat.repr n

/-- `current_date.strftime("%A %B %d")`. -/
def strftimeABd (d : Date) : String :=
  weekdayName (weekday d) ++ " " ++ monthName d.month ++ " " ++ pad2 d.day

/-- Python `str.replace(" 0", " ")`: replace every (left-to-right,
non-overlapping) occurrence of a space followed by the digit zero with a
single space.  Specialised to that two-character pattern. -/
def rep0 : List Char → List Char
  | [] => []
  | [c] => [c]
  | c1 :: c2 :: rest =>
    if c1 = ' ' ∧ c2 = '0' then ' ' :: rep0 rest
    else c1 :: rep0 (c2 :: rest)

/-- The `while weekdays_added < 3` loop of `calculate_review_deadline`:
advance one calendar day per iteration, counting the step only when the
new day is a weekday (Monday-Friday).  The Python loop performs at most
5 iterations; `fuel = 7` strictly dominates that, and the theorems below
prove the result is the fixed point for every start date. -/
def deadlineGo : Nat → Nat → Date → Date
  | 0, _, d => d
  | fuel + 1, added, d =>
    if added < 3 then
      let d1 := nextDay d
      deadlineGo fuel (if weekday d1 < 5 then added + 1 else added) d1
    else d

/-- The date computed by the loop in `calculate_review_deadline`. -/
def deadlineDate (today : Date) : Date :=
  deadlineGo 7 0 today

/-- `calculate_review_deadline` for a given current date:
`current_date.strftime("%A %B %d").replace(" 0", " ")` after the loop. -/
def calculate_review_deadline (today : Date) : String :=
  ⟨rep0 (strftimeABd (deadlineDate today)).data⟩

/-- Count of business-day ordinals in the half-open ordinal range
`(a, b]`: formalises "`b - a` calendar days ahead contain exactly `k`
business days".  An ordinal `n` is a business day when the weekday
`(n + 6) % 7` of its date is Monday-Friday. -/
def businessCount (a b : Nat) : Nat :=
  ((List.range' (a + 1) (b - a)).filter (fun n => decide ((n + 6) % 7 < 5))).length

/-- Calendar days the deadline loop advances, as a function of the start
weekday (Monday = 0). -/
def deadlineOffset : Nat → Nat
  | 0 => 3 | 1 => 3 | 2 => 5 | 3 => 5 | 4 => 5 | 5 => 4 | 6 => 3 | _ => 0

theorem deadlineGo_succ (fuel added : Nat) (d : Date) :
    deadlineGo (fuel + 1) added d =
      if added < 3 then
        deadlineGo fuel (if weekday (nextDay d) < 5 then added + 1 else added) (nextDay d)
      else d := rfl

theorem deadlineDate_spec (d : Date) (h : ValidDate d) :
    ValidDate (deadlineDate d) ∧
    toOrdinal (deadlineDate d) = toOrdinal d + deadlineOffset (weekday d) ∧
    weekday (deadlineDate d) = (weekday d + deadlineOffset (weekday d)) % 7 := by
  have hv1 : ValidDate (nextDay d) := valid_nextDay h
  have hv2 : ValidDate (nextDay (nextDay d)) := valid_nextDay hv1
  have hv3 : ValidDate (nextDay (nextDay (nextDay d))) := valid_nextDay hv2
  have hv4 : ValidDate (nextDay (nextDay (nextDay (nextDay d)))) := valid_nextDay hv3
  have hv5 : ValidDate (nextDay (nextDay (nextDay (nextDay (nextDay d))))) := valid_nextDay hv4
  have ho1 : toOrdinal (nextDay d) = toOrdinal d + 1 := toOrdinal_nextDay h
  have ho2 : toOrdinal (nextDay (nextDay d)) = toOrdinal d + 2 := by
    rw [toOrdinal_nextDay hv1, ho1]
  have ho3 : toOrdinal (nextDay (nextDay (nextDay d))) = toOrdinal d + 3 := by
    rw [toOrdinal_nextDay hv2, ho2]
  have ho4 : toOrdinal (nextDay (nextDay (nextDay (nextDay d)))) = toOrdinal d + 4 := by
    rw [toOrdinal_nextDay hv3, ho3]
  have ho5 : toOrdinal (nextDay (nextDay (nextDay (nextDay (nextDay d))))) = toOrdinal d + 5 := by
    rw [toOrdinal_nextDay hv4, ho4]
  have hw1 : weekday (nextDay d) = (weekday d + 1) % 7 := weekday_nextDay h
  have hw2 : weekday (nextDay (nextDay d)) = (weekday d + 2) % 7 := by
    rw [weekday_nextDay hv1, hw1]; omega
  have hw3 : weekday (nextDay (nextDay (nextDay d))) = (weekday d + 3) % 7 := by
    rw [weekday_nextDay hv2, hw2]; omega
  have hw4 : weekday (nextDay (nextDay (nextDay (nextDay d)))) = (weekday d + 4) % 7 := by
    rw [weekday_nextDay hv3, hw3]; omega
  have hw5 : weekday (nextDay (nextDay (nextDay (nextDay (nextDay d))))) = (weekday d + 5) % 7 := by
    rw [weekday_nextDay hv4, hw4]; omega
  have hwlt : weekday d < 7 := weekday_lt_7 d
  have hcases : weekday d = 0 ∨ weekday d = 1 ∨ weekday d = 2 ∨ weekday d = 3 ∨
      weekday d = 4 ∨ weekday d = 5 ∨ weekday d = 6 := by omega
  rcases hcases with hw | hw | hw | hw | hw | hw | hw <;>
    rw [hw] at hw1 hw2 hw3 hw4 hw5 <;>
    norm_num at hw1 hw2 hw3 hw4 hw5
  · -- Monday: advance Tue, Wed, Thu
    have s1 := deadlineGo_succ 6 0 d
    rw [hw1] at s1; norm_num at s1
    have s2 := deadlineGo_succ 5 1 (nextDay d)
    rw [hw2] at s2; norm_num at s2
    have s3 := deadlineGo_succ 4 2 (nextDay (nextDay d))
    rw [hw3] at s3; norm_num at s3
    have s4 := deadlineGo_succ 3 3 (nextDay (nextDay (nextDay d)))
    norm_num at s4
    have hE : deadlineDate d = nextDay (nextDay (nextDay d)) := by
      rw [deadlineDate, s1, s2, s3, s4]
    exact ⟨by rw [hE]; exact hv3,
      by rw [hE, hw]; simp [deadlineOffset, ho3],
      by rw [hE, hw]; simp [deadlineOffset, hw3]⟩
  · -- Tuesday: advance Wed, Thu, Fri
    have s1 := deadlineGo_succ 6 0 d
    rw [hw1] at s1; norm_num at s1
    have s2 := deadlineGo_succ 5 1 (nextDay d)
    rw [hw2] at s2; norm_num at s2
    have s3 := deadlineGo_succ 4 2 (nextDay (nextDay d))
    rw [hw3] at s3; norm_num at s3
    have s4 := deadlineGo_succ 3 3 (nextDay (nextDay (nextDay d)))
    norm_num at s4
    have hE : deadlineDate d = nextDay (nextDay (nextDay d)) := by
      rw [deadlineDate, s1, s2, s3, s4]
    exact ⟨by rw [hE]; exact hv3,
      by rw [hE, hw]; simp [deadlineOffset, ho3],
      by rw [hE, hw]; simp [deadlineOffset, hw3]⟩
  · -- Wednesday: Thu, Fri, skip Sat and Sun, Mon
    have s1 := deadlineGo_succ 6 0 d
    rw [hw1] at s1; norm_num at s1
    have s2 := deadlineGo_succ 5 1 (nextDay d)
    rw [hw2] at s2; norm_num at s2
    have s3 := deadlineGo_succ 4 2 (nextDay (nextDay d))
    rw [hw3] at s3; norm_num at s3
    have s4 := deadlineGo_succ 3 2 (nextDay (nextDay (nextDay d)))
    rw [hw4] at s4; norm_num at s4
    have s5 := deadlineGo_succ 2 2 (nextDay (nextDay (nextDay (nextDay d))))
    rw [hw5] at s5; norm_num at s5
    have s6 := deadlineGo_succ 1 3 (nextDay (nextDay (nextDay (nextDay (nextDay d)))))
    norm_num at s6
    have hE : deadlineDate d = nextDay (nextDay (nextDay (nextDay (nextDay d)))) := by
      rw [deadlineDate, s1, s2, s3, s4, s5, s6]
    exact ⟨by rw [hE]; exact hv5,
      by rw [hE, hw]; simp [deadlineOffset, ho5],
      by rw [hE, hw]; simp [deadlineOffset, hw5]⟩
  · -- Thursday: Fri, skip Sat and Sun, Mon, Tue
    have s1 := deadlineGo_succ 6 0 d
    rw [hw1] at s1; norm_num at s1
    have s2 := deadlineGo_succ 5 1 (nextDay d)
    rw [hw2] at s2; norm_num at s2
    have s3 := deadlineGo_succ 4 1 (nextDay (nextDay d))
    rw [hw3] at s3; norm_num at s3
    have s4 := deadlineGo_succ 3 1 (nextDay (nextDay (nextDay d)))
    rw [hw4] at s4; norm_num at s4
    have s5 := deadlineGo_succ 2 2 (nextDay (nextDay (nextDay (nextDay d))))
    rw [hw5] at s5; norm_num at s5
    have s6 := deadlineGo_succ 1 3 (nextDay (nextDay (nextDay (nextDay (nextDay d)))))
    norm_num at s6
    have hE : deadlineDate d = nextDay (nextDay (nextDay (nextDay (nextDay d)))) := by
      rw [deadlineDate, s1, s2, s3, s4, s5, s6]
    exact ⟨by rw [hE]; exact hv5,
      by rw [hE, hw]; simp [deadlineOffset, ho5],
      by rw [hE, hw]; simp [deadlineOffset, hw5]⟩
  · -- Friday: skip Sat and Sun, Mon, Tue, Wed
    have s1 := deadlineGo_succ 6 0 d
    rw [hw1] at s1; norm_num at s1
    have s2 := deadlineGo_succ 5 0 (nextDay d)
    rw [hw2] at s2; norm_num at s2
    have s3 := deadlineGo_succ 4 0 (nextDay (nextDay d))
    rw [hw3] at s3; norm_num at s3
    have s4 := deadlineGo_succ 3 1 (nextDay (nextDay (nextDay d)))
    rw [hw4] at s4; norm_num at s4
    have s5 := deadlineGo_succ 2 2 (nextDay (nextDay (nextDay (nextDay d))))
    rw [hw5] at s5; norm_num at s5
    have s6 := deadlineGo_succ 1 3 (nextDay (nextDay (nextDay (nextDay (nextDay d)))))
    norm_num at s6
    have hE : deadlineDate d = nextDay (nextDay (nextDay (nextDay (nextDay d)))) := by
      rw [deadlineDate, s1, s2, s3, s4, s5, s6]
    exact ⟨by rw [hE]; exact hv5,
      by rw [hE, hw]; simp [deadlineOffset, ho5],
      by rw [hE, hw]; simp [deadlineOffset, hw5]⟩
  · -- Saturday: skip Sun, Mon, Tue, Wed
    have s1 := deadlineGo_succ 6 0 d
    rw [hw1] at s1; norm_num at s1
    have s2 := deadlineGo_succ 5 0 (nextDay d)
    rw [hw2] at s2; norm_num at s2
    have s3 := deadlineGo_succ 4 1 (nextDay (nextDay d))
    rw [hw3] at s3; norm_num at s3
    have s4 := deadlineGo_succ 3 2 (nextDay (nextDay (nextDay d)))
    rw [hw4] at s4; norm_num at s4
    have s5 := deadlineGo_succ 2 3 (nextDay (nextDay (nextDay (nextDay d))))
    norm_num at s5
    have hE : deadlineDate d = nextDay (nextDay (nextDay (nextDay d))) := by
      rw [deadlineDate, s1, s2, s3, s4, s5]
    exact ⟨by rw [hE]; exact hv4,
      by rw [hE, hw]; simp [deadlineOffset, ho4],
      by rw [hE, hw]; simp [deadlineOffset, hw4]⟩
  · -- Sunday: Mon, Tue, Wed
    have s1 := deadlineGo_succ 6 0 d
    rw [hw1] at s1; norm_num at s1
    have s2 := deadlineGo_succ 5 1 (nextDay d)
    rw [hw2] at s2; norm_num at s2
    have s3 := deadlineGo_succ 4 2 (nextDay (nextDay d))
    rw [hw3] at s3; norm_num at s3
    have s4 := deadlineGo_succ 3 3 (nextDay (nextDay (nextDay d)))
    norm_num at s4
    have hE : deadlineDate d = nextDay (nextDay (nextDay d)) := by
      rw [deadlineDate, s1, s2, s3, s4]
    exact ⟨by rw [hE]; exact hv3,
      by rw [hE, hw]; simp [deadlineOffset, ho3],
      by rw [hE, hw]; simp [deadlineOffset, hw3]⟩

/-! ### Formatting lemmas for `strftime("%A %B %d").replace(" 0", " ")` -/

theorem rep0_skip (l r : List Char) (h : ∀ c ∈ l, c ≠ ' ') :
    rep0 (l ++ r) = l ++ rep0 r := by
  induction l with
  | nil => simp
  | cons c l' ih =>
    rcases hlr : l' ++ r with _ | ⟨c2, rest⟩
    · have h1 : l' = [] := by
        cases l' with
        | nil => rfl
        | cons a b => simp at hlr
      have h2 : r = [] := by rw [h1] at hlr; simpa using hlr
      subst h1; subst h2; simp [rep0]
    · have hc : c ≠ ' ' := h c (by simp)
      rw [List.cons_append, hlr, rep0, if_neg (by simp [hc]), ← hlr,
        ih (fun x hx => h x (by simp [hx]))]
      simp

theorem rep0_space {c : Char} (rest : List Char) (h : c ≠ '0') :
    rep0 (' ' :: c :: rest) = ' ' :: rep0 (c :: rest) := by
  rw [rep0, if_neg (by simp [h])]

theorem daysInMonth_le_31 (y m : Nat) : daysInMonth y m ≤ 31 := by
  unfold daysInMonth
  split <;> first
    | omega
    | (split <;> omega)

theorem pad2_strip {dd : Nat} (h1 : 1 ≤ dd) (h2 : dd ≤ 31) :
    rep0 (' ' :: (pad2 dd).data) = ' ' :: (Nat.repr dd).data := by
  interval_cases dd <;> decide

theorem weekdayName_no_space {w : Nat} (h : w < 7) :
    ∀ c ∈ (weekdayName w).data, c ≠ ' ' := by
  interval_cases w <;> decide

theorem monthName_no_space {m : Nat} (h1 : 1 ≤ m) (h2 : m ≤ 12) :
    ∀ c ∈ (monthName m).data, c ≠ ' ' := by
  interval_cases m <;> decide

theorem monthName_shape {m : Nat} (h1 : 1 ≤ m) (h2 : m ≤ 12) :
    ∃ c rest, (monthName m).data = c :: rest ∧ c ≠ '0' := by
  interval_cases m <;> exact ⟨_, _, rfl, by decide⟩

theorem format_strip {e : Date} (hv : ValidDate e) :
    rep0 (strftimeABd e).data =
      (weekdayName (weekday e) ++ " " ++ monthName e.month ++ " " ++ Nat.repr e.day).data := by
  obtain ⟨hy, hm1, hm2, hd1, hd2⟩ := hv
  have hd31 : e.day ≤ 31 := le_trans hd2 (daysInMonth_le_31 _ _)
  obtain ⟨mc, mrest, hM, hM0⟩ := monthName_shape hm1 hm2
  have hWs := weekdayName_no_space (weekday_lt_7 e)
  have hMs := monthName_no_space hm1 hm2
  simp only [strftimeABd, String.data_append, List.append_assoc, List.singleton_append]
  rw [rep0_skip _ _ hWs]
  congr 1
  rw [hM]
  simp only [List.cons_append]
  rw [rep0_space _ hM0]
  congr 1
  have hMskip := rep0_skip (mc :: mrest) (' ' :: (pad2 e.day).data) (by rw [← hM]; exact hMs)
  simp only [List.cons_append] at hMskip
  rw [hMskip, pad2_strip hd1 hd31]

theorem deadline_businessCount (d : Date) (h : ValidDate d) :
    businessCount (toOrdinal d) (toOrdinal (deadlineDate d)) = 3 := by
  obtain ⟨hv, ho, hwk⟩ := deadlineDate_spec d h
  have hn : (toOrdinal d + 6) % 7 = weekday d := rfl
  have hwlt : weekday d < 7 := weekday_lt_7 d
  have hcases : weekday d = 0 ∨ weekday d = 1 ∨ weekday d = 2 ∨ weekday d = 3 ∨
      weekday d = 4 ∨ weekday d = 5 ∨ weekday d = 6 := by omega
  unfold businessCount
  have hr3 : List.range' (toOrdinal d + 1) 3
      = [toOrdinal d + 1, toOrdinal d + 2, toOrdinal d + 3] := by simp [List.range']
  have hr4 : List.range' (toOrdinal d + 1) 4
      = [toOrdinal d + 1, toOrdinal d + 2, toOrdinal d + 3, toOrdinal d + 4] := by
    simp [List.range']
  have hr5 : List.range' (toOrdinal d + 1) 5
      = [toOrdinal d + 1, toOrdinal d + 2, toOrdinal d + 3, toOrdinal d + 4,
         toOrdinal d + 5] := by simp [List.range']
  rcases hcases with hw | hw | hw | hw | hw | hw | hw <;>
      rw [hw] at hn <;> rw [ho, hw] <;> simp only [deadlineOffset] <;>
      rw [Nat.add_sub_cancel_left]
  · rw [hr3]
    have c1 : (decide ((toOrdinal d + 1 + 6) % 7 < 5)) = true := by
      simp only [decide_eq_true_eq]; omega
    have c2 : (decide ((toOrdinal d + 2 + 6) % 7 < 5)) = true := by
      simp only [decide_eq_true_eq]; omega
    have c3 : (decide ((toOrdinal d + 3 + 6) % 7 < 5)) = true := by
      simp only [decide_eq_true_eq]; omega
    simp [List.filter_cons, c1, c2, c3]
  · rw [hr3]
    have c1 : (decide ((toOrdinal d + 1 + 6) % 7 < 5)) = true := by
      simp only [decide_eq_true_eq]; omega
    have c2 : (decide ((toOrdinal d + 2 + 6) % 7 < 5)) = true := by
      simp only [decide_eq_true_eq]; omega
    have c3 : (decide ((toOrdinal d + 3 + 6) % 7 < 5)) = true := by
      simp only [decide_eq_true_eq]; omega
    simp [List.filter_cons, c1, c2, c3]
  · rw [hr5]
    have c1 : (decide ((toOrdinal d + 1 + 6) % 7 < 5)) = true := by
      simp only [decide_eq_true_eq]; omega
    have c2 : (decide ((toOrdinal d + 2 + 6) % 7 < 5)) = true := by
      simp only [decide_eq_true_eq]; omega
    have c3 : (decide ((toOrdinal d + 3 + 6) % 7 < 5)) = false := by
      simp only [decide_eq_false_iff_not]; omega
    have c4 : (decide ((toOrdinal d + 4 + 6) % 7 < 5)) = false := by
      simp only [decide_eq_false_iff_not]; omega
    have c5 : (decide ((toOrdinal d + 5 + 6) % 7 < 5)) = true := by
      simp only [decide_eq_true_eq]; omega
    simp [List.filter_cons, c1, c2, c3, c4, c5]
  · rw [hr5]
    have c1 : (decide ((toOrdinal d + 1 + 6) % 7 < 5)) = true := by
      simp only [decide_eq_true_eq]; omega
    have c2 : (decide ((toOrdinal d + 2 + 6) % 7 < 5)) = false := by
      simp only [decide_eq_false_iff_not]; omega
    have c3 : (decide ((toOrdinal d + 3 + 6) % 7 < 5)) = false := by
      simp only [decide_eq_false_iff_not]; omega
    have c4 : (decide ((toOrdinal d + 4 + 6) % 7 < 5)) = true := by
      simp only [decide_eq_true_eq]; omega
    have c5 : (decide ((toOrdinal d + 5 + 6) % 7 < 5)) = true := by
      simp only [decide_eq_true_eq]; omega
    simp [List.filter_cons, c1, c2, c3, c4, c5]
  · rw [hr5]
    have c1 : (decide ((toOrdinal d + 1 + 6) % 7 < 5)) = false := by
      simp only [decide_eq_false_iff_not]; omega
    have c2 : (decide ((toOrdinal d + 2 + 6) % 7 < 5)) = false := by
      simp only [decide_eq_false_iff_not]; omega
    have c3 : (decide ((toOrdinal d + 3 + 6) % 7 < 5)) = true := by
      simp only [decide_eq_true_eq]; omega
    have c4 : (decide ((toOrdinal d + 4 + 6) % 7 < 5)) = true := by
      simp only [decide_eq_true_eq]; omega
    have c5 : (decide ((toOrdinal d + 5 + 6) % 7 < 5)) = true := by
      simp only [decide_eq_true_eq]; omega
    simp [List.filter_cons, c1, c2, c3, c4, c5]
  · rw [hr4]
    have c1 : (decide ((toOrdinal d + 1 + 6) % 7 < 5)) = false := by
      simp only [decide_eq_false_iff_not]; omega
    have c2 : (decide ((toOrdinal d + 2 + 6) % 7 < 5)) = true := by
      simp only [decide_eq_true_eq]; omega
    have c3 : (decide ((toOrdinal d + 3 + 6) % 7 < 5)) = true := by
      simp only [decide_eq_true_eq]; omega
    have c4 : (decide ((toOrdinal d + 4 + 6) % 7 < 5)) = true := by
      simp only [decide_eq_true_eq]; omega
    simp [List.filter_cons, c1, c2, c3, c4]
  · rw [hr3]
    have c1 : (decide ((toOrdinal d + 1 + 6) % 7 < 5)) = true := by
      simp only [decide_eq_true_eq]; omega
    have c2 : (decide ((toOrdinal d + 2 + 6) % 7 < 5)) = true := by
      simp only [decide_eq_true_eq]; omega
    have c3 : (decide ((toOrdinal d + 3 + 6) % 7 < 5)) = true := by
      simp only [decide_eq_true_eq]; omega
    simp [List.filter_cons, c1, c2, c3]

/-- C1: For every current date, the deadline calculator returns the date
exactly 3 business days (Saturday/Sunday excluded) after the current date —
the returned date is a business day, lies strictly after the current date,
and the ordinal interval between them contains exactly 3 business days —
formatted as the full weekday name, full month name, and day-of-month with
any leading zero on single-digit days removed; in particular, when the
current date is a Wednesday (weekday 2) the result is the following Monday
(5 calendar days later, weekday 0), and when it is a Friday (weekday 4) the
result is the following Wednesday (5 calendar days later, weekday 2). -/
theorem claim_C1 (d : Date) (h : ValidDate d) :
    calculate_review_deadline d =
      weekdayName (weekday (deadlineDate d)) ++ " " ++
        monthName (deadlineDate d).month ++ " " ++ Nat.repr (deadlineDate d).day ∧
    toOrdinal d < toOrdinal (deadlineDate d) ∧
    weekday (deadlineDate d) < 5 ∧
    businessCount (toOrdinal d) (toOrdinal (deadlineDate d)) = 3 ∧
    (weekday d = 2 →
      toOrdinal (deadlineDate d) = toOrdinal d + 5 ∧ weekday (deadlineDate d) = 0) ∧
    (weekday d = 4 →
      toOrdinal (deadlineDate d) = toOrdinal d + 5 ∧ weekday (deadlineDate d) = 2) := by
  obtain ⟨hv, ho, hwk⟩ := deadlineDate_spec d h
  refine ⟨?_, ?_, ?_, deadline_businessCount d h, ?_, ?_⟩
  · unfold calculate_review_deadline
    rw [format_strip hv]
  · have h3 : ∀ w, w < 7 → 3 ≤ deadlineOffset w := by decide
    have := h3 _ (weekday_lt_7 d)
    omega
  · have h5 : ∀ w, w < 7 → (w + deadlineOffset w) % 7 < 5 := by decide
    rw [hwk]
    exact h5 _ (weekday_lt_7 d)
  · intro hw
    rw [hw] at ho hwk
    simp only [deadlineOffset] at ho hwk
    exact ⟨ho, by rw [hwk]⟩
  · intro hw
    rw [hw] at ho hwk
    simp only [deadlineOffset] at ho hwk
    exact ⟨ho, by rw [hwk]⟩

/-- Witness for C1 at the concrete Wednesday 2026-10-07 (and the claim body
it yields there). -/
theorem claim_C1_witness :
    ValidDate ⟨2026, 10, 7⟩ ∧
    (calculate_review_deadline ⟨2026, 10, 7⟩ =
      weekdayName (weekday (deadlineDate ⟨2026, 10, 7⟩)) ++ " " ++
        monthName (deadlineDate ⟨2026, 10, 7⟩).month ++ " " ++
        Nat.repr (deadlineDate ⟨2026, 10, 7⟩).day ∧
    toOrdinal ⟨2026, 10, 7⟩ < toOrdinal (deadlineDate ⟨2026, 10, 7⟩) ∧
    weekday (deadlineDate ⟨2026, 10, 7⟩) < 5 ∧
    businessCount (toOrdinal ⟨2026, 10, 7⟩) (toOrdinal (deadlineDate ⟨2026, 10, 7⟩)) = 3 ∧
    (weekday ⟨2026, 10, 7⟩ = 2 →
      toOrdinal (deadlineDate ⟨2026, 10, 7⟩) = toOrdinal ⟨2026, 10, 7⟩ + 5 ∧
      weekday (deadlineDate ⟨2026, 10, 7⟩) = 0) ∧
    (weekday ⟨2026, 10, 7⟩ = 4 →
      toOrdinal (deadlineDate ⟨2026, 10, 7⟩) = toOrdinal ⟨2026, 10, 7⟩ + 5 ∧
      weekday (deadlineDate ⟨2026, 10, 7⟩) = 2)) :=
  ⟨by decide, claim_C1 ⟨2026, 10, 7⟩ (by decide)⟩

/-! ## The HTML pipeline of `generate_review_email_html`
(write_review_email.py, lines 83-161)

All text is modelled as `List Char` (Python `str`).  The two `re.sub`
rewrites are single left-to-right scans, written with a fuel argument
(`fuel = length of the input`, proved sufficient below) so that they are
structurally recursive and compute by kernel reduction. -/

/-- The apostrophe character (escaped by `html.escape` as `&#x27;`). -/
def apos : Char := Char.ofNat 39

/-- Per-character behaviour of Python `html.escape(s, quote=True)`: the five
special characters become entity references, everything else is unchanged.
(`html.escape` runs `str.replace` for `&` first, then `<`, `>`, `"`, `'`;
since no replacement output contains a later-replaced character, the net
effect is this independent character map.) -/
def escChar (c : Char) : List Char :=
  if c = '&' then "&amp;".data
  else if c = '<' then "&lt;".data
  else if c = '>' then "&gt;".data
  else if c = '"' then "&quot;".data
  else if c = apos then "&#x27;".data
  else [c]

/-- `html.escape(email_text)`. -/
def htmlEscape : List Char → List Char
  | [] => []
  | c :: rest => escChar c ++ htmlEscape rest

/-- Python `str.split('\n')`. -/
def splitNl : List Char → List (List Char)
  | [] => [[]]
  | c :: rest =>
    if c = '\n' then [] :: splitNl rest
    else
      match splitNl rest with
      | [] => [[c]]
      | l :: ls => (c :: l) :: ls

/-- Python `'\n'.join(lines)`. -/
def joinNl : List (List Char) → List Char
  | [] => []
  | [l] => l
  | l :: ls => l ++ '\n' :: joinNl ls

/-- `'&nbsp;' * k`. -/
def nbspBlock : Nat → List Char
  | 0 => []
  | k + 1 => "&nbsp;".data ++ nbspBlock k

/-- One iteration of the indentation loop: count leading spaces and, when
there are any, replace them by that many `&nbsp;` entities
(`'&nbsp;' * leading_spaces + line.lstrip(' ')`). -/
def nbspLine (l : List Char) : List Char :=
  let k := (l.takeWhile (fun c => c = ' ')).length
  if k > 0 then nbspBlock k ++ l.dropWhile (fun c => c = ' ') else l

/-- The whole indentation-preservation step: split on newlines, transform
each line, join with newlines. -/
def nbspIndent (s : List Char) : List Char :=
  joinNl ((splitNl s).map nbspLine)

/-- Scan for the closing `**` of a bold span: the lazy group `(.*?)` in
`re.sub(r'\*\*(.*?)\*\*', ...)` matches up to the earliest following `**`,
cannot cross a newline (`.` does not match `\n`), and may contain single
stars.  Returns (inner text, rest after the closing `**`). -/
def findClose : List Char → Option (List Char × List Char)
  | '*' :: '*' :: rest => some ([], rest)
  | '\n' :: _ => none
  | c :: rest => (findClose rest).map (fun p => (c :: p.1, p.2))
  | [] => none

def strongOpen : List Char := "<strong>".data

def strongClose : List Char := "</strong>".data

/-- One left-to-right pass of `re.sub(r'\*\*(.*?)\*\*', r'<strong>\1</strong>', s)`:
at `**` with a reachable closing `**`, replace and continue after the match;
otherwise emit one character and rescan from the next position. -/
def boldSubF : Nat → List Char → List Char
  | 0, s => s
  | _ + 1, [] => []
  | fuel + 1, '*' :: '*' :: rest =>
    (match findClose rest with
     | some (inner, after) => strongOpen ++ inner ++ strongClose ++ boldSubF fuel after
     | none => '*' :: boldSubF fuel ('*' :: rest))
  | fuel + 1, c :: rest => c :: boldSubF fuel rest

def boldSub (s : List Char) : List Char := boldSubF s.length s

/-- Collect characters up to (and consuming) the first occurrence of `stop`;
`none` when `stop` never occurs.  This is what the greedy character classes
`[^\]]+` and `[^)]+` match (they cannot pass their stop character). -/
def takeUntil (stop : Char) : List Char → Option (List Char × List Char)
  | [] => none
  | c :: rest =>
    if c = stop then some ([], rest)
    else (takeUntil stop rest).map (fun p => (c :: p.1, p.2))

/-- Try to match `([^\]]+)\]\(([^)]+)\)` right after a `[`:
a non-empty label up to `]`, then `(`, then a non-empty url up to `)`.
Returns (label, url, rest after the closing parenthesis). -/
def parseLink (s : List Char) : Option (List Char × List Char × List Char) :=
  match takeUntil ']' s with
  | none => none
  | some (lbl, r1) =>
    if lbl = [] then none
    else
      match r1 with
      | '(' :: r2 =>
        (match takeUntil ')' r2 with
         | none => none
         | some (url, r3) => if url = [] then none else some (lbl, url, r3))
      | _ => none

def aOpen : List Char := "<a href=\"".data

def aMid : List Char := "\">".data

def aClose : List Char := "</a>".data

/-- One pass of `re.sub(r'\[([^\]]+)\]\(([^)]+)\)', r'<a href="\2">\1</a>', s)`. -/
def linkSubF : Nat → List Char → List Char
  | 0, s => s
  | _ + 1, [] => []
  | fuel + 1, '[' :: rest =>
    (match parseLink rest with
     | some (lbl, url, after) =>
       aOpen ++ url ++ aMid ++ lbl ++ aClose ++ linkSubF fuel after
     | none => '[' :: linkSubF fuel rest)
  | fuel + 1, c :: rest => c :: linkSubF fuel rest

def linkSub (s : List Char) : List Char := linkSubF s.length s

/-- `html_content.replace('\n', '<br>\n')`. -/
def brNl : List Char → List Char
  | [] => []
  | c :: rest => if c = '\n' then "<br>\n".data ++ brNl rest else c :: brNl rest

/-- The fixed HTML shell before `{html_content}` in the f-string of
`generate_review_email_html` (the doubled braces of the f-string render as
single braces). -/
def shellPrefix : String :=
  "<!DOCTYPE html>\n<html>\n<head>\n    <meta charset=\"utf-8\">\n    <title>FSDS Review Request</title>\n    <style>\n        body \x7b\n            font-family: Verdana, sans-serif;\n            font-size: small;\n            margin: 20px;\n        \x7d\n        a \x7b\n            color: blue;\n            text-decoration: underline;\n        \x7d\n        strong \x7b\n            font-weight: bold;\n        \x7d\n    </style>\n</head>\n<body>\n"

/-- The fixed HTML shell after `{html_content}`. -/
def shellSuffix : String := "\n</body>\n</html>"

def wrapShell (content : List Char) : List Char :=
  shellPrefix.data ++ content ++ shellSuffix.data

/-- Lines 112-133 of `generate_review_email_html`: escape, preserve
indentation, bold spans, links, line breaks — in that order. -/
def renderPipeline (emailText : List Char) : List Char :=
  brNl (linkSub (boldSub (nbspIndent (htmlEscape emailText))))

/-! ## The template filler (Jinja2 variable substitution)

`generate_review_email_html` renders the template through Jinja2 with the
`template_vars` mapping.  The templates in play use only `{{ name }}`
variable tags, so the engine is modelled as a single scan replacing each
`{{ name }}` by its value (an undefined variable renders as the empty
string, Jinja2's default `Undefined`); an unterminated `{{` is left as-is
(Jinja2 would raise a syntax error; no theorem below depends on that case). -/

/-- Read a variable tag up to the closing braces; returns (name, rest). -/
def readVar : List Char → Option (List Char × List Char)
  | '}' :: '}' :: rest => some ([], rest)
  | c :: rest => (readVar rest).map (fun p => (c :: p.1, p.2))
  | [] => none

/-- Strip leading and trailing spaces (Jinja2 lexes `{{ name }}` with the
surrounding whitespace ignored). -/
def trimChars (l : List Char) : List Char :=
  (((l.dropWhile (fun c => c = ' ')).reverse.dropWhile (fun c => c = ' ')).reverse)

/-- Look up a variable name (whitespace-trimmed, as Jinja2 lexes
`{{ name }}`); undefined variables render as the empty string. -/
def lookupVar (vars : String → Option String) (name : List Char) : List Char :=
  ((vars (String.mk (trimChars name))).getD "").data

def fillF (vars : String → Option String) : Nat → List Char → List Char
  | 0, s => s
  | _ + 1, [] => []
  | fuel + 1, '{' :: '{' :: rest =>
    (match readVar rest with
     | some (name, rest') => lookupVar vars name ++ fillF vars fuel rest'
     | none => '{' :: '{' :: rest)
  | fuel + 1, c :: rest => c :: fillF vars fuel rest

/-- `template.render(template_vars)` for variable-only templates. -/
def fillTemplate (vars : String → Option String) (s : List Char) : List Char :=
  fillF vars s.length s

/-- The `template_vars` dictionary (lines 97-103): the five recognised
fields, with `fsds_number` rendered as `f"FSDS-{ticket_info['fsds_number']}"`. -/
def template_vars (author title : String) (fsds_number : Int)
    (review_deadline signature : String) : String → Option String :=
  fun k =>
    if k = "author" then some author
    else if k = "title" then some title
    else if k = "fsds_number" then some ("FSDS-" ++ toString fsds_number)
    else if k = "review_deadline" then some review_deadline
    else if k = "signature" then some signature
    else none

/-- The `ticket_info` dictionary as `generate_review_email_html` receives
it: each of the five consulted keys may be present or absent. -/
structure TicketInfo where
  author : Option String
  title : Option String
  fsds_number : Option Int
  review_deadline : Option String
  signature : Option String

/-- Lines 97-103: build `template_vars` by indexing `ticket_info` — the
keys are read in the dictionary-literal order author, title, fsds_number,
review_deadline, signature, and the first absent key raises `KeyError`
before any template rendering happens. -/
def buildTemplateVars (info : TicketInfo) : Except String (String → Option String) :=
  match info.author with
  | none => .error "KeyError: author"
  | some a =>
    match info.title with
    | none => .error "KeyError: title"
    | some t =>
      match info.fsds_number with
      | none => .error "KeyError: fsds_number"
      | some n =>
        match info.review_deadline with
        | none => .error "KeyError: review_deadline"
        | some dl =>
          match info.signature with
          | none => .error "KeyError: signature"
          | some sg => .ok (template_vars a t n dl sg)

/-- `generate_review_email_html`: build the variable mapping (possibly
raising `KeyError`), fill the template, run the HTML pipeline, wrap in the
shell. -/
def generate_review_email_html (info : TicketInfo) (templateText : List Char) :
    Except String (List Char) :=
  match buildTemplateVars info with
  | .error e => .error e
  | .ok vars => .ok (wrapShell (renderPipeline (fillTemplate vars templateText)))

/-! ### Fuel irrelevance and recursion equations for the scanners -/

theorem findClose_length :
    ∀ (s inner after : List Char), findClose s = some (inner, after) →
      s.length = inner.length + 2 + after.length := by
  intro s
  induction s with
  | nil => intro inner after h; exact Option.noConfusion h
  | cons c rest ih =>
    intro inner after h
    rw [findClose.eq_def] at h
    split at h
    · rename_i rest2 he
      rw [List.cons.injEq] at he
      obtain ⟨h1, h2⟩ := he
      simp only [Option.some.injEq, Prod.mk.injEq] at h
      obtain ⟨h3, h4⟩ := h
      subst h1; subst h2; subst h3; subst h4
      simp only [List.length_cons, List.length_nil]
      omega
    · exact Option.noConfusion h
    · rename_i c2 rest2 hg1 hg2 he
      rw [List.cons.injEq] at he
      obtain ⟨h1, h2⟩ := he
      subst h1; subst h2
      cases hfc : findClose rest with
      | none =>
        rw [hfc] at h
        exact Option.noConfusion h
      | some p =>
        rw [hfc] at h
        simp only [Option.map_some', Option.some.injEq, Prod.mk.injEq] at h
        obtain ⟨h3, h4⟩ := h
        subst h3; subst h4
        have := ih p.1 p.2 (by rw [hfc])
        simp only [List.length_cons] at this ⊢
        omega
    · rename_i he
      exact absurd he (List.cons_ne_nil c rest)

theorem boldSubF_nil (f : Nat) : boldSubF f [] = [] := by cases f <;> rfl

theorem boldSubF_stars (f : Nat) (rest : List Char) :
    boldSubF (f + 1) ('*' :: '*' :: rest) =
      (match findClose rest with
       | some (inner, after) => strongOpen ++ inner ++ strongClose ++ boldSubF f after
       | none => '*' :: boldSubF f ('*' :: rest)) := rfl

theorem boldSubF_stars_some (f : Nat) (rest inner after : List Char)
    (hfc : findClose rest = some (inner, after)) :
    boldSubF (f + 1) ('*' :: '*' :: rest) =
      strongOpen ++ inner ++ strongClose ++ boldSubF f after := by
  rw [boldSubF_stars, hfc]

theorem boldSubF_stars_none (f : Nat) (rest : List Char) (hfc : findClose rest = none) :
    boldSubF (f + 1) ('*' :: '*' :: rest) = '*' :: boldSubF f ('*' :: rest) := by
  rw [boldSubF_stars, hfc]

theorem boldSubF_emit1 (f : Nat) (c : Char) (rest : List Char) (h : c ≠ '*') :
    boldSubF (f + 1) (c :: rest) = c :: boldSubF f rest := by
  conv_lhs => rw [boldSubF.eq_def]
  split
  · omega
  · rename_i he; simp at he
  · rename_i hf he
    rw [List.cons.injEq] at he
    exact absurd he.1 h
  · rename_i hf he
    rw [List.cons.injEq] at he
    obtain ⟨h1, h2⟩ := he
    subst h1; subst h2
    simp only [Nat.succ_eq_add_one, Nat.add_right_cancel_iff] at hf
    rw [hf]

theorem boldSubF_star1 (f : Nat) : boldSubF (f + 1) ['*'] = '*' :: boldSubF f [] := rfl

theorem boldSubF_star2 (f : Nat) (c : Char) (rest : List Char) (h : c ≠ '*') :
    boldSubF (f + 1) ('*' :: c :: rest) = '*' :: boldSubF f (c :: rest) := by
  conv_lhs => rw [boldSubF.eq_def]
  split
  · omega
  · rename_i he; simp at he
  · rename_i hf he
    rw [List.cons.injEq, List.cons.injEq] at he
    exact absurd he.2.1 h
  · rename_i hf he
    rw [List.cons.injEq] at he
    obtain ⟨h1, h2⟩ := he
    subst h1; subst h2
    simp only [Nat.succ_eq_add_one, Nat.add_right_cancel_iff] at hf
    rw [hf]

theorem boldSubF_congr :
    ∀ (f1 f2 : Nat) (s : List Char), s.length ≤ f1 → s.length ≤ f2 →
      boldSubF f1 s = boldSubF f2 s := by
  intro f1
  induction f1 with
  | zero =>
    intro f2 s h1 h2
    have hs : s = [] := List.eq_nil_of_length_eq_zero (by omega)
    subst hs
    rw [boldSubF_nil, boldSubF_nil]
  | succ f ih =>
    intro f2 s h1 h2
    cases f2 with
    | zero =>
      have hs : s = [] := List.eq_nil_of_length_eq_zero (by omega)
      subst hs
      rw [boldSubF_nil, boldSubF_nil]
    | succ g =>
      rcases s with _ | ⟨c1, rest1⟩
      · rw [boldSubF_nil, boldSubF_nil]
      by_cases hc1 : c1 = '*'
      · subst hc1
        rcases rest1 with _ | ⟨c2, rest⟩
        · rw [boldSubF_star1, boldSubF_star1, boldSubF_nil, boldSubF_nil]
        by_cases hc2 : c2 = '*'
        · subst hc2
          cases hfc : findClose rest with
          | some p =>
            obtain ⟨inner, after⟩ := p
            rw [boldSubF_stars_some f rest inner after hfc,
              boldSubF_stars_some g rest inner after hfc]
            have hl := findClose_length rest inner after hfc
            simp only [List.length_cons] at h1 h2
            rw [ih g after (by omega) (by omega)]
          | none =>
            rw [boldSubF_stars_none f rest hfc, boldSubF_stars_none g rest hfc]
            simp only [List.length_cons] at h1 h2
            rw [ih g ('*' :: rest) (by simp only [List.length_cons]; omega)
              (by simp only [List.length_cons]; omega)]
        · rw [boldSubF_star2 _ _ _ hc2, boldSubF_star2 _ _ _ hc2]
          simp only [List.length_cons] at h1 h2
          rw [ih g (c2 :: rest) (by simp only [List.length_cons]; omega)
            (by simp only [List.length_cons]; omega)]
      · rw [boldSubF_emit1 _ _ _ hc1, boldSubF_emit1 _ _ _ hc1]
        simp only [List.length_cons] at h1 h2
        rw [ih g rest1 (by omega) (by omega)]


/-! ### Equations at the `boldSub` level -/

theorem boldSub_nil : boldSub [] = [] := rfl

theorem boldSub_stars_some (rest inner after : List Char)
    (hfc : findClose rest = some (inner, after)) :
    boldSub ('*' :: '*' :: rest) = strongOpen ++ inner ++ strongClose ++ boldSub after := by
  unfold boldSub
  simp only [List.length_cons]
  rw [boldSubF_stars_some (rest.length + 1) rest inner after hfc]
  have hl := findClose_length rest inner after hfc
  rw [boldSubF_congr (rest.length + 1) after.length after (by omega) (by omega)]

theorem boldSub_stars_none (rest : List Char) (hfc : findClose rest = none) :
    boldSub ('*' :: '*' :: rest) = '*' :: boldSub ('*' :: rest) := by
  unfold boldSub
  simp only [List.length_cons]
  rw [boldSubF_stars_none (rest.length + 1) rest hfc]

theorem boldSub_emit (c : Char) (rest : List Char) (h : c ≠ '*') :
    boldSub (c :: rest) = c :: boldSub rest := by
  unfold boldSub
  simp only [List.length_cons]
  rw [boldSubF_emit1 rest.length c rest h]

theorem boldSub_star1 : boldSub ['*'] = ['*'] := rfl

theorem boldSub_star2 (c : Char) (rest : List Char) (h : c ≠ '*') :
    boldSub ('*' :: c :: rest) = '*' :: boldSub (c :: rest) := by
  unfold boldSub
  simp only [List.length_cons]
  rw [boldSubF_star2 (rest.length + 1) c rest h]

/-! ### Fuel machinery for `linkSub` -/

theorem takeUntil_length (stop : Char) :
    ∀ (s pre rest : List Char), takeUntil stop s = some (pre, rest) →
      s.length = pre.length + 1 + rest.length := by
  intro s
  induction s with
  | nil => intro pre rest h; exact Option.noConfusion h
  | cons c tail ih =>
    intro pre rest h
    rw [takeUntil.eq_def] at h
    simp only at h
    by_cases hc : c = stop
    · rw [if_pos hc] at h
      simp only [Option.some.injEq, Prod.mk.injEq] at h
      obtain ⟨h1, h2⟩ := h
      subst h1; subst h2
      simp only [List.length_cons, List.length_nil]
      omega
    · rw [if_neg hc] at h
      cases htc : takeUntil stop tail with
      | none => rw [htc] at h; exact Option.noConfusion h
      | some p =>
        rw [htc] at h
        simp only [Option.map_some', Option.some.injEq, Prod.mk.injEq] at h
        obtain ⟨h1, h2⟩ := h
        subst h1; subst h2
        have := ih p.1 p.2 (by rw [htc])
        simp only [List.length_cons] at this ⊢
        omega

theorem parseLink_length (s lbl url after : List Char)
    (h : parseLink s = some (lbl, url, after)) :
    s.length = lbl.length + url.length + 3 + after.length ∧
      lbl ≠ [] ∧ url ≠ [] := by
  unfold parseLink at h
  split at h
  · exact Option.noConfusion h
  · rename_i p1 lbl1 r1 heq1
    split at h
    · exact Option.noConfusion h
    · rename_i hlne
      split at h
      · rename_i r2 heq2
        split at h
        · exact Option.noConfusion h
        · rename_i p2 url1 r3 heq3
          split at h
          · exact Option.noConfusion h
          · rename_i hune
            simp only [Option.some.injEq, Prod.mk.injEq] at h
            obtain ⟨h1, h2, h3⟩ := h
            subst h1; subst h2; subst h3
            have e1 := takeUntil_length ']' s _ _ heq1
            have e2 := takeUntil_length ')' _ _ _ heq3
            refine ⟨?_, hlne, hune⟩
            simp only [List.length_cons] at e1
            omega
      · exact Option.noConfusion h

theorem linkSubF_nil (f : Nat) : linkSubF f [] = [] := by cases f <;> rfl

theorem linkSubF_bracket (f : Nat) (rest : List Char) :
    linkSubF (f + 1) ('[' :: rest) =
      (match parseLink rest with
       | some (lbl, url, after) =>
         aOpen ++ url ++ aMid ++ lbl ++ aClose ++ linkSubF f after
       | none => '[' :: linkSubF f rest) := rfl

theorem linkSubF_bracket_some (f : Nat) (rest lbl url after : List Char)
    (hp : parseLink rest = some (lbl, url, after)) :
    linkSubF (f + 1) ('[' :: rest) =
      aOpen ++ url ++ aMid ++ lbl ++ aClose ++ linkSubF f after := by
  rw [linkSubF_bracket, hp]

theorem linkSubF_bracket_none (f : Nat) (rest : List Char) (hp : parseLink rest = none) :
    linkSubF (f + 1) ('[' :: rest) = '[' :: linkSubF f rest := by
  rw [linkSubF_bracket, hp]

theorem linkSubF_emit (f : Nat) (c : Char) (rest : List Char) (h : c ≠ '[') :
    linkSubF (f + 1) (c :: rest) = c :: linkSubF f rest := by
  conv_lhs => rw [linkSubF.eq_def]
  split
  · omega
  · rename_i he; simp at he
  · rename_i hf he
    rw [List.cons.injEq] at he
    exact absurd he.1 h
  · rename_i hf he
    rw [List.cons.injEq] at he
    obtain ⟨h1, h2⟩ := he
    subst h1; subst h2
    simp only [Nat.succ_eq_add_one, Nat.add_right_cancel_iff] at hf
    rw [hf]

theorem linkSubF_congr :
    ∀ (f1 f2 : Nat) (s : List Char), s.length ≤ f1 → s.length ≤ f2 →
      linkSubF f1 s = linkSubF f2 s := by
  intro f1
  induction f1 with
  | zero =>
    intro f2 s h1 h2
    have hs : s = [] := List.eq_nil_of_length_eq_zero (by omega)
    subst hs
    rw [linkSubF_nil, linkSubF_nil]
  | succ f ih =>
    intro f2 s h1 h2
    cases f2 with
    | zero =>
      have hs : s = [] := List.eq_nil_of_length_eq_zero (by omega)
      subst hs
      rw [linkSubF_nil, linkSubF_nil]
    | succ g =>
      rcases s with _ | ⟨c1, rest1⟩
      · rw [linkSubF_nil, linkSubF_nil]
      simp only [List.length_cons] at h1 h2
      by_cases hc1 : c1 = '['
      · subst hc1
        cases hp : parseLink rest1 with
        | some t =>
          obtain ⟨lbl, url, after⟩ := t
          rw [linkSubF_bracket_some f rest1 lbl url after hp,
            linkSubF_bracket_some g rest1 lbl url after hp]
          obtain ⟨hlen, -, -⟩ := parseLink_length rest1 lbl url after hp
          rw [ih g after (by omega) (by omega)]
        | none =>
          rw [linkSubF_bracket_none f rest1 hp, linkSubF_bracket_none g rest1 hp]
          rw [ih g rest1 (by omega) (by omega)]
      · rw [linkSubF_emit f c1 rest1 hc1, linkSubF_emit g c1 rest1 hc1]
        rw [ih g rest1 (by omega) (by omega)]

theorem linkSub_nil : linkSub [] = [] := rfl

theorem linkSub_some (rest lbl url after : List Char)
    (hp : parseLink rest = some (lbl, url, after)) :
    linkSub ('[' :: rest) = aOpen ++ url ++ aMid ++ lbl ++ aClose ++ linkSub after := by
  unfold linkSub
  simp only [List.length_cons]
  rw [linkSubF_bracket_some rest.length rest lbl url after hp]
  obtain ⟨hlen, -, -⟩ := parseLink_length rest lbl url after hp
  rw [linkSubF_congr rest.length after.length after (by omega) (by omega)]

theorem linkSub_none (rest : List Char) (hp : parseLink rest = none) :
    linkSub ('[' :: rest) = '[' :: linkSub rest := by
  unfold linkSub
  simp only [List.length_cons]
  rw [linkSubF_bracket_none rest.length rest hp]

theorem linkSub_emit (c : Char) (rest : List Char) (h : c ≠ '[') :
    linkSub (c :: rest) = c :: linkSub rest := by
  unfold linkSub
  simp only [List.length_cons]
  rw [linkSubF_emit rest.length c rest h]

/-! ### Fuel machinery for the template filler -/

theorem readVar_length :
    ∀ (s name rest : List Char), readVar s = some (name, rest) →
      s.length = name.length + 2 + rest.length := by
  intro s
  induction s with
  | nil => intro name rest h; exact Option.noConfusion h
  | cons c tail ih =>
    intro name rest h
    rw [readVar.eq_def] at h
    split at h
    · rename_i rest2 he
      rw [List.cons.injEq] at he
      obtain ⟨h1, h2⟩ := he
      simp only [Option.some.injEq, Prod.mk.injEq] at h
      obtain ⟨h3, h4⟩ := h
      subst h1; subst h2; subst h3; subst h4
      simp only [List.length_cons, List.length_nil]
      omega
    · rename_i c2 rest2 hg he
      rw [List.cons.injEq] at he
      obtain ⟨h1, h2⟩ := he
      subst h1; subst h2
      cases hrv : readVar tail with
      | none =>
        rw [hrv] at h
        exact Option.noConfusion h
      | some p =>
        rw [hrv] at h
        simp only [Option.map_some', Option.some.injEq, Prod.mk.injEq] at h
        obtain ⟨h3, h4⟩ := h
        subst h3; subst h4
        have := ih p.1 p.2 (by rw [hrv])
        simp only [List.length_cons] at this ⊢
        omega
    · rename_i he
      exact absurd he (List.cons_ne_nil c tail)

theorem fillF_nil (vars : String → Option String) (f : Nat) : fillF vars f [] = [] := by
  cases f <;> rfl

theorem fillF_braces (vars : String → Option String) (f : Nat) (rest : List Char) :
    fillF vars (f + 1) ('{' :: '{' :: rest) =
      (match readVar rest with
       | some (name, rest2) => lookupVar vars name ++ fillF vars f rest2
       | none => '{' :: '{' :: rest) := rfl

theorem fillF_braces_some (vars : String → Option String) (f : Nat)
    (rest name rest2 : List Char) (hrv : readVar rest = some (name, rest2)) :
    fillF vars (f + 1) ('{' :: '{' :: rest) = lookupVar vars name ++ fillF vars f rest2 := by
  rw [fillF_braces, hrv]

theorem fillF_braces_none (vars : String → Option String) (f : Nat)
    (rest : List Char) (hrv : readVar rest = none) :
    fillF vars (f + 1) ('{' :: '{' :: rest) = '{' :: '{' :: rest := by
  rw [fillF_braces, hrv]

theorem fillF_emit1 (vars : String → Option String) (f : Nat) (c : Char)
    (rest : List Char) (h : c ≠ '{') :
    fillF vars (f + 1) (c :: rest) = c :: fillF vars f rest := by
  conv_lhs => rw [fillF.eq_def]
  split
  · omega
  · rename_i he; simp at he
  · rename_i hf he
    rw [List.cons.injEq] at he
    exact absurd he.1 h
  · rename_i hf he
    rw [List.cons.injEq] at he
    obtain ⟨h1, h2⟩ := he
    subst h1; subst h2
    simp only [Nat.succ_eq_add_one, Nat.add_right_cancel_iff] at hf
    rw [hf]

theorem fillF_brace1 (vars : String → Option String) (f : Nat) :
    fillF vars (f + 1) ['{'] = '{' :: fillF vars f [] := rfl

theorem fillF_brace2 (vars : String → Option String) (f : Nat) (c : Char)
    (rest : List Char) (h : c ≠ '{') :
    fillF vars (f + 1) ('{' :: c :: rest) = '{' :: fillF vars f (c :: rest) := by
  conv_lhs => rw [fillF.eq_def]
  split
  · omega
  · rename_i he; simp at he
  · rename_i hf he
    rw [List.cons.injEq, List.cons.injEq] at he
    exact absurd he.2.1 h
  · rename_i hf he
    rw [List.cons.injEq] at he
    obtain ⟨h1, h2⟩ := he
    subst h1; subst h2
    simp only [Nat.succ_eq_add_one, Nat.add_right_cancel_iff] at hf
    rw [hf]

theorem fillF_congr (vars : String → Option String) :
    ∀ (f1 f2 : Nat) (s : List Char), s.length ≤ f1 → s.length ≤ f2 →
      fillF vars f1 s = fillF vars f2 s := by
  intro f1
  induction f1 with
  | zero =>
    intro f2 s h1 h2
    have hs : s = [] := List.eq_nil_of_length_eq_zero (by omega)
    subst hs
    rw [fillF_nil, fillF_nil]
  | succ f ih =>
    intro f2 s h1 h2
    cases f2 with
    | zero =>
      have hs : s = [] := List.eq_nil_of_length_eq_zero (by omega)
      subst hs
      rw [fillF_nil, fillF_nil]
    | succ g =>
      rcases s with _ | ⟨c1, rest1⟩
      · rw [fillF_nil, fillF_nil]
      simp only [List.length_cons] at h1 h2
      by_cases hc1 : c1 = '{'
      · subst hc1
        rcases rest1 with _ | ⟨c2, rest⟩
        · rw [fillF_brace1, fillF_brace1, fillF_nil, fillF_nil]
        simp only [List.length_cons] at h1 h2
        by_cases hc2 : c2 = '{'
        · subst hc2
          cases hrv : readVar rest with
          | some p =>
            obtain ⟨name, rest2⟩ := p
            rw [fillF_braces_some vars f rest name rest2 hrv,
              fillF_braces_some vars g rest name rest2 hrv]
            have hl := readVar_length rest name rest2 hrv
            rw [ih g rest2 (by omega) (by omega)]
          | none =>
            rw [fillF_braces_none vars f rest hrv, fillF_braces_none vars g rest hrv]
        · rw [fillF_brace2 vars f c2 rest hc2, fillF_brace2 vars g c2 rest hc2]
          rw [ih g (c2 :: rest) (by simp only [List.length_cons]; omega)
            (by simp only [List.length_cons]; omega)]
      · rw [fillF_emit1 vars f c1 rest1 hc1, fillF_emit1 vars g c1 rest1 hc1]
        rw [ih g rest1 (by omega) (by omega)]

theorem fillTemplate_nil (vars : String → Option String) : fillTemplate vars [] = [] := rfl

theorem fillTemplate_var (vars : String → Option String) (rest name rest2 : List Char)
    (hrv : readVar rest = some (name, rest2)) :
    fillTemplate vars ('{' :: '{' :: rest) =
      lookupVar vars name ++ fillTemplate vars rest2 := by
  unfold fillTemplate
  simp only [List.length_cons]
  rw [fillF_braces_some vars (rest.length + 1) rest name rest2 hrv]
  have hl := readVar_length rest name rest2 hrv
  rw [fillF_congr vars (rest.length + 1) rest2.length rest2 (by omega) (by omega)]

theorem fillTemplate_emit (vars : String → Option String) (c : Char)
    (rest : List Char) (h : c ≠ '{') :
    fillTemplate vars (c :: rest) = c :: fillTemplate vars rest := by
  unfold fillTemplate
  simp only [List.length_cons]
  rw [fillF_emit1 vars rest.length c rest h]

/-! ### Template-filler correctness lemmas -/

theorem fillTemplate_lit (vars : String → Option String) :
    ∀ (lit rest : List Char), '{' ∉ lit →
      fillTemplate vars (lit ++ rest) = lit ++ fillTemplate vars rest := by
  intro lit
  induction lit with
  | nil => intro rest h; simp
  | cons c lit2 ih =>
    intro rest h
    have hc : c ≠ '{' := fun hcc => h (hcc ▸ List.mem_cons_self c lit2)
    rw [List.cons_append, fillTemplate_emit vars c (lit2 ++ rest) hc,
      ih rest (fun hm => h (List.mem_cons_of_mem c hm)), List.cons_append]

theorem readVar_complete :
    ∀ (key rest : List Char), '}' ∉ key →
      readVar (key ++ '}' :: '}' :: rest) = some (key, rest) := by
  intro key
  induction key with
  | nil => intro rest h; rfl
  | cons c key2 ih =>
    intro rest h
    have hc : c ≠ '}' := fun hcc => h (hcc ▸ List.mem_cons_self c key2)
    rw [List.cons_append, readVar.eq_def]
    split
    · rename_i he
      rw [List.cons.injEq] at he
      exact absurd he.1 hc
    · rename_i c2 rest2 hg he
      rw [List.cons.injEq] at he
      obtain ⟨h1, h2⟩ := he
      subst h1
      rw [← h2, ih rest (fun hm => h (List.mem_cons_of_mem c hm))]
      rfl
    · rename_i he
      exact absurd he (List.cons_ne_nil _ _)

theorem fillTemplate_tagged (vars : String → Option String) (key rest : List Char)
    (h : '}' ∉ key) :
    fillTemplate vars ('{' :: '{' :: (key ++ '}' :: '}' :: rest)) =
      lookupVar vars key ++ fillTemplate vars rest :=
  fillTemplate_var vars _ key rest (readVar_complete key rest h)

/-- C2: For every ticket record providing author, title, fsds_number,
review_deadline, and signature, the template filler substitutes every
recognized placeholder with its corresponding value — the variable mapping
built from the record sends each of the five recognized names to the
record's value, with `fsds_number` rendered as `"FSDS-<identifier>"` — and
the example template `"Hello {{author}}, re {{fsds_number}}: {{title}}"`
renders to `"Hello <author>, re FSDS-<identifier>: <title>"` (with record
values John Smith / 189 / Fix crash this is
`"Hello John Smith, re FSDS-189: Fix crash"`, see the witness below). -/
theorem claim_C2 (author title : String) (n : Int) (dl sg : String) :
    template_vars author title n dl sg "author" = some author ∧
    template_vars author title n dl sg "title" = some title ∧
    template_vars author title n dl sg "fsds_number" = some ("FSDS-" ++ toString n) ∧
    template_vars author title n dl sg "review_deadline" = some dl ∧
    template_vars author title n dl sg "signature" = some sg ∧
    fillTemplate (template_vars author title n dl sg)
        ("Hello \x7b\x7bauthor\x7d\x7d, re \x7b\x7bfsds_number\x7d\x7d: \x7b\x7btitle\x7d\x7d").data =
      ("Hello " ++ author ++ ", re FSDS-" ++ toString n ++ ": " ++ title).data := by
  refine ⟨rfl, rfl, rfl, rfl, rfl, ?_⟩
  have hdec : ("Hello \x7b\x7bauthor\x7d\x7d, re \x7b\x7bfsds_number\x7d\x7d: \x7b\x7btitle\x7d\x7d").data =
      "Hello ".data ++ ('{' :: '{' :: ("author".data ++ '}' :: '}' ::
        (", re ".data ++ ('{' :: '{' :: ("fsds_number".data ++ '}' :: '}' ::
          (": ".data ++ ('{' :: '{' :: ("title".data ++ '}' :: '}' :: ([] : List Char))))))))) := by
    decide
  rw [hdec,
    fillTemplate_lit _ _ _ (by decide),
    fillTemplate_tagged _ _ _ (by decide),
    fillTemplate_lit _ _ _ (by decide),
    fillTemplate_tagged _ _ _ (by decide),
    fillTemplate_lit _ _ _ (by decide),
    fillTemplate_tagged _ _ _ (by decide),
    fillTemplate_nil]
  have ha : lookupVar (template_vars author title n dl sg) "author".data = author.data := rfl
  have hf : lookupVar (template_vars author title n dl sg) "fsds_number".data =
      ("FSDS-" ++ toString n).data := rfl
  have ht : lookupVar (template_vars author title n dl sg) "title".data = title.data := rfl
  rw [ha, hf, ht]
  simp [String.data_append, List.append_assoc]

/-- Witness for C2 at the record of the spec scenario:
author "John Smith", identifier 189, title "Fix crash". -/
theorem claim_C2_witness :
    fillTemplate (template_vars "John Smith" "Fix crash" 189 "Monday March 3" "Jane")
        ("Hello \x7b\x7bauthor\x7d\x7d, re \x7b\x7bfsds_number\x7d\x7d: \x7b\x7btitle\x7d\x7d").data =
      ("Hello John Smith, re FSDS-189: Fix crash").data := by
  have h := (claim_C2 "John Smith" "Fix crash" 189 "Monday March 3" "Jane").2.2.2.2.2
  rw [h]
  decide

/-! ### C10: missing optional keys fail before rendering -/

/-- C10: For every ticket-info mapping that lacks a `review_deadline` or
`signature` key, `generate_review_email_html` raises a missing-key error
before any template rendering occurs (the result is an error that does not
depend on the template at all); rendering succeeds exactly when all five
keys author, title, fsds_number, review_deadline, signature are present. -/
theorem claim_C10 (info : TicketInfo) (t : List Char) :
    ((∃ o, generate_review_email_html info t = .ok o) ↔
      (info.author.isSome ∧ info.title.isSome ∧ info.fsds_number.isSome ∧
       info.review_deadline.isSome ∧ info.signature.isSome)) ∧
    ((info.review_deadline = none ∨ info.signature = none) →
      (∃ e, generate_review_email_html info t = .error e) ∧
      ∀ t2, generate_review_email_html info t = generate_review_email_html info t2) := by
  obtain ⟨a, ti, n, dl, sg⟩ := info
  constructor
  · cases a <;> cases ti <;> cases n <;> cases dl <;> cases sg <;>
      simp [generate_review_email_html, buildTemplateVars]
  · intro hmiss
    cases a <;> cases ti <;> cases n <;> cases dl <;> cases sg <;>
      simp_all [generate_review_email_html, buildTemplateVars]

/-- Witness for C10: a record lacking only `review_deadline` yields a
missing-key error. -/
theorem claim_C10_witness :
    ∃ e, generate_review_email_html
        ⟨some "A", some "T", some 5, none, some "S"⟩ "x".data = .error e :=
  ((claim_C10 ⟨some "A", some "T", some 5, none, some "S"⟩ "x".data).2 (Or.inl rfl)).1

/-! ### C6: round trip, template fill then render -/

/-- Number of positions at which `p` occurs in the text. -/
def countOcc (p : List Char) : List Char → Nat
  | [] => 0
  | c :: rest => (if p.isPrefixOf (c :: rest) then 1 else 0) + countOcc p rest

/-- The payload of a successful `generate_review_email_html` run. -/
def exceptOut : Except String (List Char) → List Char
  | .ok o => o
  | .error _ => []

/-- C6: filling the template `"Hello {{author}}, re {{fsds_number}}:
{{title}}"` with `{{title}}` = `"Fix bug"` and then HTML-rendering the
result produces exactly one occurrence of `"Fix bug"` in the output, and
the output contains no remaining placeholder tokens (`{{` or `}}`). -/
theorem claim_C6 :
    (generate_review_email_html
        ⟨some "John Smith", some "Fix bug", some 189, some "Monday March 3", some "Jane"⟩
        ("Hello \x7b\x7bauthor\x7d\x7d, re \x7b\x7bfsds_number\x7d\x7d: \x7b\x7btitle\x7d\x7d").data).isOk
      = true ∧
    countOcc "Fix bug".data
      (exceptOut (generate_review_email_html
        ⟨some "John Smith", some "Fix bug", some 189, some "Monday March 3", some "Jane"⟩
        ("Hello \x7b\x7bauthor\x7d\x7d, re \x7b\x7bfsds_number\x7d\x7d: \x7b\x7btitle\x7d\x7d").data)) = 1 ∧
    countOcc "\x7b\x7b".data
      (exceptOut (generate_review_email_html
        ⟨some "John Smith", some "Fix bug", some 189, some "Monday March 3", some "Jane"⟩
        ("Hello \x7b\x7bauthor\x7d\x7d, re \x7b\x7bfsds_number\x7d\x7d: \x7b\x7btitle\x7d\x7d").data)) = 0 ∧
    countOcc "\x7d\x7d".data
      (exceptOut (generate_review_email_html
        ⟨some "John Smith", some "Fix bug", some 189, some "Monday March 3", some "Jane"⟩
        ("Hello \x7b\x7bauthor\x7d\x7d, re \x7b\x7bfsds_number\x7d\x7d: \x7b\x7btitle\x7d\x7d").data)) = 0 := by
  set_option maxRecDepth 4000 in decide

/-! ## Jira access and the two CLI drivers
(write_review_email.py lines 31-80 and 203-252; write_approved_email.py)

External effects are passed in as data: the Jira lookup outcome, file
existence, JSON decoding, and any later exception in the `try` block.
A driver's outcome is the pair (exit status, printed error line — empty on
success). -/

/-- The fields of a Jira issue the scripts read
(`issue.fields.summary`, `issue.fields.reporter.displayName`). -/
structure Issue where
  summary : String
  displayName : String

/-- `get_jira_issue` (lines 31-44): on a lookup failure it prints
`f"Error retrieving issue {issue_key}: {e}"` and calls `sys.exit(1)`
(`SystemExit` is not an `Exception`, so the `except Exception` handler in
`main` does not intercept it). -/
def get_jira_issue (fsds_number : Int) (lookup : Except String Issue) :
    Except (Nat × String) Issue :=
  match lookup with
  | .ok issue => .ok issue
  | .error e =>
    .error (1, "Error retrieving issue FSDS-" ++ toString fsds_number ++ ": " ++ e)

/-- `get_title_reporter_from_issue` (lines 46-54): both fields verbatim. -/
def get_title_reporter_from_issue (issue : Issue) : String × String :=
  (issue.summary, issue.displayName)

/-- The dictionary returned by `get_ticket_info_from_jira`. -/
structure TicketRecord where
  title : String
  author : String
  fsds_number : Int
deriving DecidableEq, Repr

/-- `get_ticket_info_from_jira` (lines 57-80): fetch the issue, take title
and author verbatim, attach the given `fsds_number` unchanged. -/
def get_ticket_info_from_jira (fsds_number : Int) (lookup : Except String Issue) :
    Except (Nat × String) TicketRecord :=
  match get_jira_issue fsds_number lookup with
  | .error e => .error e
  | .ok issue =>
    .ok ⟨(get_title_reporter_from_issue issue).1,
         (get_title_reporter_from_issue issue).2, fsds_number⟩

/-- `main` of write_review_email.py (lines 203-252): the `try` block
fetches the record (a lookup failure exits inside `get_jira_issue`);
any other exception `e` in the block is caught and printed as
`f"Error: {e}"` with exit 1; otherwise the run succeeds with exit 0. -/
def review_main (fsds_number : Int) (lookup : Except String Issue)
    (laterFailure : Option String) : Nat × String :=
  match get_ticket_info_from_jira fsds_number lookup with
  | .error r => r
  | .ok _ =>
    match laterFailure with
    | some e => (1, "Error: " ++ e)
    | none => (0, "")

/-- `main` of write_approved_email.py: missing JSON file, missing template
file, JSON decode failure, and any other exception each print one
`"Error: "`-prefixed line and exit 1; success exits 0. -/
def approved_main (fsds_number : Int) (jsonExists tmplExists : Bool)
    (jsonDecode : Except String Unit) (otherFailure : Option String) : Nat × String :=
  if !jsonExists then
    (1, "Error: JSON file 'FSDS-" ++ toString fsds_number ++ "-info.json' not found")
  else if !tmplExists then
    (1, "Error: Template file 'approved-template.md' not found")
  else
    match jsonDecode with
    | .error e =>
      (1, "Error: Invalid JSON in 'FSDS-" ++ toString fsds_number ++ "-info.json': " ++ e)
    | .ok _ =>
      match otherFailure with
      | some e => (1, "Error: " ++ e)
      | none => (0, "")

/-- C7 as stated is false on the code: the Jira lookup failure path of
write_review_email.py prints `"Error retrieving issue FSDS-189: …"`, which
is not prefixed `"Error: "`. -/
theorem claim_C7_counterexample :
    get_jira_issue 189 (.error "Connection refused") =
      .error (1, "Error retrieving issue FSDS-189: Connection refused") ∧
    ¬ ("Error: ".data <+:
        ("Error retrieving issue FSDS-189: Connection refused").data) := by
  constructor
  · rfl
  · decide

/-- C7 (amended): every handled error exits with status 1 and prints a
single line; the approved-email script's handled errors and the review
script's top-level handler prefix that line with `"Error: "`, while the
review script's issue-retrieval failure prefixes it with
`"Error retrieving issue "`; both scripts exit 0 exactly on success. -/
theorem claim_C7 (n : Int) (jsonExists tmplExists : Bool) (jd : Except String Unit)
    (of : Option String) (lookup : Except String Issue) (lf : Option String) :
    ((approved_main n jsonExists tmplExists jd of).1 = 0 ∨
      ((approved_main n jsonExists tmplExists jd of).1 = 1 ∧
        "Error: ".data <+: (approved_main n jsonExists tmplExists jd of).2.data)) ∧
    ((approved_main n jsonExists tmplExists jd of).1 = 0 ↔
      (jsonExists = true ∧ tmplExists = true ∧ jd.isOk = true ∧ of = none)) ∧
    ((review_main n lookup lf).1 = 0 ↔ (lookup.isOk = true ∧ lf = none)) ∧
    (∀ err, lf = some err → lookup.isOk = true →
      review_main n lookup lf = (1, "Error: " ++ err)) ∧
    (∀ err, lookup = .error err →
      (review_main n lookup lf).1 = 1 ∧
      "Error retrieving issue ".data <+: (review_main n lookup lf).2.data) := by
  refine ⟨?_, ?_, ?_, ?_, ?_⟩
  · cases jsonExists <;> cases tmplExists <;> cases jd <;> cases of <;>
      simp [approved_main, String.data_append]
  · cases jsonExists <;> cases tmplExists <;> cases jd <;> cases of <;>
      simp [approved_main, Except.isOk, Except.toBool]
  · cases lookup <;> cases lf <;>
      simp [review_main, get_ticket_info_from_jira, get_jira_issue, Except.isOk,
        Except.toBool]
  · intro err hlf hok
    cases lookup with
    | error e => simp [Except.isOk, Except.toBool] at hok
    | ok issue =>
      subst hlf
      rfl
  · intro err hl
    subst hl
    refine ⟨rfl, ?_⟩
    show "Error retrieving issue ".data <+:
      ("Error retrieving issue FSDS-" ++ toString n ++ ": " ++ err).data
    simp only [String.data_append]
    have h1 : "Error retrieving issue ".data <+: "Error retrieving issue FSDS-".data := by
      decide
    calc "Error retrieving issue ".data
        <+: "Error retrieving issue FSDS-".data := h1
      _ <+: "Error retrieving issue FSDS-".data ++
          ((toString n).data ++ (": ".data ++ err.data)) := List.prefix_append _ _
      _ = "Error retrieving issue FSDS-".data ++ (toString n).data ++ ": ".data ++
          err.data := by simp [List.append_assoc]

/-- Witness for C7 at concrete outcomes: a missing JSON file, and a failed
Jira lookup. -/
theorem claim_C7_witness :
    ((approved_main 189 false true (.ok ()) none).1 = 0 ∨
      ((approved_main 189 false true (.ok ()) none).1 = 1 ∧
        "Error: ".data <+: (approved_main 189 false true (.ok ()) none).2.data)) ∧
    ((review_main 189 (.error "boom") none).1 = 1 ∧
      "Error retrieving issue ".data <+: (review_main 189 (.error "boom") none).2.data) :=
  ⟨(claim_C7 189 false true (.ok ()) none (.error "boom") none).1,
   (claim_C7 189 false true (.ok ()) none (.error "boom") none).2.2.2.2 "boom" rfl⟩

/-! ### C8: the identifier invariant -/

/-- Numeric value of a digit run. -/
def digitsVal (l : List Char) : Nat :=
  l.foldl (fun acc c => acc * 10 + (c.toNat - 48)) 0

/-- Modelled from the spec: the bracketed-ticket-tag parser of the markup
Name/Title Extractor (spec section 4.1) — code that is not under src/.
Scan the title for `[FSDS-<digits>]` and capture the digits as the
identifier; the digits of a tag always denote a natural number. -/
def parseTicketTag : List Char → Option Nat
  | [] => none
  | c :: rest =>
    if "[FSDS-".data.isPrefixOf (c :: rest) then
      let after := (c :: rest).drop 6
      let ds := after.takeWhile (fun d => d.isDigit)
      match after.drop ds.length with
      | ']' :: _ => if ds.isEmpty then none else some (digitsVal ds)
      | _ => parseTicketTag rest
    else parseTicketTag rest

/-- C8 as stated is false on the code: the CLI accepts any integer
(`argparse` `type=int` performs no positivity check) and
`get_ticket_info_from_jira` stores it verbatim, so a record with
identifier 0 — not a positive integer — is constructible. -/
theorem claim_C8_counterexample :
    get_ticket_info_from_jira 0 (.ok ⟨"T", "John Smith"⟩) =
      .ok ⟨"T", "John Smith", 0⟩ ∧
    ¬ (0 < (TicketRecord.mk "T" "John Smith" 0).fsds_number) := by
  exact ⟨rfl, by decide⟩

/-- C8 (amended): the identifier of every constructed TicketRecord is an
integer — when parsed from a bracketed ticket tag (spec-modelled markup
path) it is the natural-number value of the digits, hence nonnegative;
when directly supplied it is stored verbatim, with no positivity check. -/
theorem claim_C8 :
    (∀ (n : Int) (lookup : Except String Issue) (r : TicketRecord),
      get_ticket_info_from_jira n lookup = .ok r → r.fsds_number = n) ∧
    (∀ (s : List Char) (k : Nat), parseTicketTag s = some k → 0 ≤ (k : Int)) := by
  constructor
  · intro n lookup r h
    cases lookup with
    | error e => exact Except.noConfusion h
    | ok issue =>
      simp only [get_ticket_info_from_jira, get_jira_issue, Except.ok.injEq] at h
      rw [← h]
  · intro s k _
    exact Int.ofNat_nonneg k

/-- Witness for C8: the record built for ticket 189 carries 189, and the
tag `[FSDS-189]` parses to the natural number 189. -/
theorem claim_C8_witness :
    (TicketRecord.mk "Fix crash" "John Smith" 189).fsds_number = 189 ∧
    parseTicketTag "[FSDS-189] Fix crash - OCC Jira".data = some 189 ∧
    0 ≤ ((189 : Nat) : Int) :=
  ⟨claim_C8.1 189 (.ok ⟨"Fix crash", "John Smith"⟩) ⟨"Fix crash", "John Smith", 189⟩ rfl,
   by decide,
   claim_C8.2 "[FSDS-189] Fix crash - OCC Jira".data 189 (by decide)⟩

/-! ### C9: the author invariant -/

/-- Does a word start with an uppercase letter? -/
def looksCapitalized (w : List Char) : Bool :=
  match w with
  | [] => false
  | c :: _ => c.isUpper

/-- First two whitespace-separated words of a line, when it has at least
two. -/
def firstTwoWords (l : List Char) : Option (List Char × List Char) :=
  let l1 := l.dropWhile (fun c => c = ' ')
  let w1 := l1.takeWhile (fun c => c ≠ ' ')
  let r1 := (l1.dropWhile (fun c => c ≠ ' ')).dropWhile (fun c => c = ' ')
  let w2 := r1.takeWhile (fun c => c ≠ ' ')
  if w1 = [] ∨ w2 = [] then none else some (w1, w2)

/-- Modelled from the spec: the "looks like a personal name" test of the
markup extractor (spec section 4.1) — the line must have at least two
words and the name-looks-valid predicate must hold on the first two; of
the two policy variants the spec offers, this development fixes the
"at least one of the first two words capitalized" variant. -/
def lineQualifies (l : List Char) : Bool :=
  match firstTwoWords l with
  | some (w1, w2) => looksCapitalized w1 || looksCapitalized w2
  | none => false

/-- The non-empty trimmed lines of the reporter text. -/
def nonEmptyLines (text : List Char) : List (List Char) :=
  ((splitNl text).map trimChars).filter (fun l => !l.isEmpty)

/-- Modelled from the spec: the author selection of the markup extractor
(spec section 4.1) — the first line that looks like a personal name,
falling back to the first non-empty line, or the literal `"Unknown"` when
no lines exist. -/
def selectAuthor (reporterText : List Char) : List Char :=
  let lines := nonEmptyLines reporterText
  match lines.find? lineQualifies with
  | some l => l
  | none =>
    match lines with
    | l :: _ => l
    | [] => "Unknown".data

/-- C9 as stated is false on the src/ code path: the API path takes the
reporter display name verbatim, so an issue whose display name is the
empty string yields a record with an empty author and no fallback. -/
theorem claim_C9_counterexample :
    ∃ r, get_ticket_info_from_jira 189 (.ok ⟨"T", ""⟩) = .ok r ∧ r.author = "" :=
  ⟨⟨"T", "", 189⟩, rfl, rfl⟩

/-- C9 (amended): on the spec-modelled markup path the author is never
empty (a placeholder `"Unknown"` is used when no line qualifies), while on
the src/ API path the author is the reporter display name verbatim — which
may be empty. -/
theorem claim_C9 :
    (∀ text, selectAuthor text ≠ []) ∧
    (∀ (n : Int) (lookup : Except String Issue) (r : TicketRecord),
      get_ticket_info_from_jira n lookup = .ok r →
      ∃ issue, lookup = .ok issue ∧ r.author = issue.displayName) := by
  constructor
  · intro text
    unfold selectAuthor
    cases hf : (nonEmptyLines text).find? lineQualifies with
    | some l =>
      have hm : l ∈ nonEmptyLines text := List.mem_of_find?_eq_some hf
      simp only [nonEmptyLines, List.mem_filter, Bool.not_eq_true'] at hm
      simp only [hf]
      intro hnil
      rw [hnil] at hm
      simp at hm
    | none =>
      cases hl : nonEmptyLines text with
      | nil => simp [hf, hl]
      | cons l ls =>
        have hm : l ∈ nonEmptyLines text := by rw [hl]; exact List.mem_cons_self l ls
        simp only [nonEmptyLines, List.mem_filter, Bool.not_eq_true'] at hm
        rw [hl] at hf
        simp only [hl, hf]
        intro hnil
        rw [hnil] at hm
        simp at hm
  · intro n lookup r h
    cases lookup with
    | error e => exact Except.noConfusion h
    | ok issue =>
      refine ⟨issue, rfl, ?_⟩
      simp only [get_ticket_info_from_jira, get_jira_issue, Except.ok.injEq] at h
      rw [← h]
      rfl

/-- Witness for C9 at the spec's end-to-end reporter text and a concrete
API record. -/
theorem claim_C9_witness :
    selectAuthor ("John Smith\n[View Profile]").data ≠ [] ∧
    (∃ issue, (.ok ⟨"T", "Jane"⟩ : Except String Issue) = .ok issue ∧
      (TicketRecord.mk "T" "Jane" 7).author = issue.displayName) :=
  ⟨claim_C9.1 ("John Smith\n[View Profile]").data,
   claim_C9.2 7 (.ok ⟨"T", "Jane"⟩) ⟨"T", "Jane", 7⟩ rfl⟩

/-! ### C4: the two markdown rewrites replace every span -/

theorem findClose_complete :
    ∀ (x b : List Char), '*' ∉ x → '\n' ∉ x →
      findClose (x ++ '*' :: '*' :: b) = some (x, b) := by
  intro x
  induction x with
  | nil => intro b _ _; rfl
  | cons c x2 ih =>
    intro b h1 h2
    have hc1 : c ≠ '*' := fun hcc => h1 (hcc ▸ List.mem_cons_self c x2)
    have hc2 : c ≠ '\n' := fun hcc => h2 (hcc ▸ List.mem_cons_self c x2)
    rw [List.cons_append, findClose.eq_def]
    split
    · rename_i rest2 he
      rw [List.cons.injEq] at he
      exact absurd he.1 hc1
    · rename_i he
      rw [List.cons.injEq] at he
      exact absurd he.1 hc2
    · rename_i c2 rest2 hg1 hg2 he
      rw [List.cons.injEq] at he
      obtain ⟨hh1, hh2⟩ := he
      subst hh1
      rw [← hh2, ih b (fun hm => h1 (List.mem_cons_of_mem c hm))
        (fun hm => h2 (List.mem_cons_of_mem c hm))]
      rfl
    · rename_i he
      exact absurd he (List.cons_ne_nil _ _)

theorem takeUntil_complete (stop : Char) :
    ∀ (pre rest : List Char), stop ∉ pre →
      takeUntil stop (pre ++ stop :: rest) = some (pre, rest) := by
  intro pre
  induction pre with
  | nil =>
    intro rest _
    rw [List.nil_append, takeUntil.eq_def]
    simp
  | cons c pre2 ih =>
    intro rest h
    have hc : c ≠ stop := fun hcc => h (hcc ▸ List.mem_cons_self c pre2)
    rw [List.cons_append, takeUntil.eq_def]
    simp only [if_neg hc]
    rw [ih rest (fun hm => h (List.mem_cons_of_mem c hm))]
    rfl

theorem parseLink_complete (lbl url b : List Char) (h1 : lbl ≠ []) (h2 : ']' ∉ lbl)
    (h3 : url ≠ []) (h4 : ')' ∉ url) :
    parseLink (lbl ++ ']' :: '(' :: (url ++ ')' :: b)) = some (lbl, url, b) := by
  unfold parseLink
  rw [takeUntil_complete ']' lbl ('(' :: (url ++ ')' :: b)) h2]
  simp only [h1, if_neg]
  rw [takeUntil_complete ')' url b h4]
  simp only [h1, h3, if_neg]
  simp

/-- C4: in the renderer, every `**bold text**` span is replaced by a
strong element wrapping the inner text (the lazy group stops at the first
closing `**`, encoded here by the inner text being star-free and
newline-free), and every `[label](url)` span is replaced by an anchor
element with the label as visible text and the url as href (both captures
stop at their first closing delimiter); the rewrites continue on the rest
of the text. -/
theorem claim_C4 :
    (∀ (a x b : List Char), '*' ∉ a → '*' ∉ x → '\n' ∉ x →
      boldSub (a ++ '*' :: '*' :: (x ++ '*' :: '*' :: b)) =
        a ++ strongOpen ++ x ++ strongClose ++ boldSub b) ∧
    (∀ (a lbl url b : List Char), '[' ∉ a → lbl ≠ [] → ']' ∉ lbl →
        url ≠ [] → ')' ∉ url →
      linkSub (a ++ '[' :: (lbl ++ ']' :: '(' :: (url ++ ')' :: b))) =
        a ++ aOpen ++ url ++ aMid ++ lbl ++ aClose ++ linkSub b) := by
  constructor
  · intro a
    induction a with
    | nil =>
      intro x b hx1 hx2 hx3
      rw [List.nil_append,
        boldSub_stars_some (x ++ '*' :: '*' :: b) x b (findClose_complete x b hx2 hx3),
        List.nil_append]
    | cons c a2 ih =>
      intro x b ha hx2 hx3
      have hc : c ≠ '*' := fun hcc => ha (hcc ▸ List.mem_cons_self c a2)
      rw [List.cons_append, boldSub_emit c _ hc,
        ih x b (fun hm => ha (List.mem_cons_of_mem c hm)) hx2 hx3]
      simp
  · intro a
    induction a with
    | nil =>
      intro lbl url b ha h1 h2 h3 h4
      rw [List.nil_append,
        linkSub_some (lbl ++ ']' :: '(' :: (url ++ ')' :: b)) lbl url b
          (parseLink_complete lbl url b h1 h2 h3 h4),
        List.nil_append]
    | cons c a2 ih =>
      intro lbl url b ha h1 h2 h3 h4
      have hc : c ≠ '[' := fun hcc => ha (hcc ▸ List.mem_cons_self c a2)
      rw [List.cons_append, linkSub_emit c _ hc,
        ih lbl url b (fun hm => ha (List.mem_cons_of_mem c hm)) h1 h2 h3 h4]
      simp

/-- Witness for C4 at the concrete texts `"x **bold** y"` and
`"see [here](http://x) end"`. -/
theorem claim_C4_witness :
    boldSub ("x ".data ++ '*' :: '*' :: ("bold".data ++ '*' :: '*' :: " y".data)) =
      "x ".data ++ strongOpen ++ "bold".data ++ strongClose ++ boldSub " y".data ∧
    linkSub ("see ".data ++ '[' ::
        ("here".data ++ ']' :: '(' :: ("http://x".data ++ ')' :: " end".data))) =
      "see ".data ++ aOpen ++ "http://x".data ++ aMid ++ "here".data ++ aClose ++
        linkSub " end".data :=
  ⟨claim_C4.1 "x ".data "bold".data " y".data (by decide) (by decide) (by decide),
   claim_C4.2 "see ".data "here".data "http://x".data " end".data
     (by decide) (by decide) (by decide) (by decide) (by decide)⟩

/-! ### C5: malformed markdown degrades to literal text -/

theorem findClose_eq_none : ∀ (s : List Char), ¬ (['*', '*'] <:+: s) →
    findClose s = none := by
  intro s
  induction s with
  | nil => intro h; rfl
  | cons c rest ih =>
    intro h
    rw [findClose.eq_def]
    split
    · rename_i rest2 he
      exact absurd (he ▸ ( List.IsPrefix.isInfix ⟨rest2, rfl⟩)) h
    · rfl
    · rename_i c2 rest2 hg1 hg2 he
      rw [List.cons.injEq] at he
      obtain ⟨hh1, hh2⟩ := he
      rw [← hh2, ih (fun hm => h (List.infix_cons hm))]
      rfl
    · rename_i he
      exact absurd he (List.cons_ne_nil _ _)

theorem boldSub_id : ∀ (s : List Char), ¬ (['*', '*'] <:+: s) → boldSub s = s := by
  intro s
  induction s with
  | nil => intro h; rfl
  | cons c rest ih =>
    intro h
    have hrest : ¬ (['*', '*'] <:+: rest) := fun hm => h (List.infix_cons hm)
    by_cases hc : c = '*'
    · subst hc
      rcases rest with _ | ⟨c2, r2⟩
      · exact boldSub_star1
      · have hc2 : c2 ≠ '*' := by
          intro hcc
          subst hcc
          exact h ( List.IsPrefix.isInfix ⟨r2, rfl⟩)
        rw [boldSub_star2 c2 r2 hc2, ih hrest]
    · rw [boldSub_emit c rest hc, ih hrest]

theorem boldSub_star_cons : ∀ (b : List Char), ¬ (['*', '*'] <:+: b) →
    boldSub ('*' :: b) = '*' :: b := by
  intro b
  induction b with
  | nil => intro h; exact boldSub_star1
  | cons c r ih =>
    intro h
    by_cases hc : c = '*'
    · subst hc
      have hr : ¬ (['*', '*'] <:+: r) := fun hm => h (List.infix_cons hm)
      rw [boldSub_stars_none r (findClose_eq_none r hr), ih hr]
    · rw [boldSub_star2 c r hc, boldSub_id (c :: r) h]

theorem takeUntil_eq_none (stop : Char) : ∀ (s : List Char), stop ∉ s →
    takeUntil stop s = none := by
  intro s
  induction s with
  | nil => intro h; rfl
  | cons c rest ih =>
    intro h
    have hc : c ≠ stop := fun hcc => h (hcc ▸ List.mem_cons_self c rest)
    rw [takeUntil.eq_def]
    simp only [if_neg hc]
    rw [ih (fun hm => h (List.mem_cons_of_mem c hm))]
    rfl

theorem parseLink_eq_none (s : List Char) (h : ']' ∉ s) : parseLink s = none := by
  unfold parseLink
  rw [takeUntil_eq_none ']' s h]

theorem linkSub_id : ∀ (s : List Char), ']' ∉ s → linkSub s = s := by
  intro s
  induction s with
  | nil => intro h; rfl
  | cons c rest ih =>
    intro h
    have hrest : ']' ∉ rest := fun hm => h (List.mem_cons_of_mem c hm)
    by_cases hc : c = '['
    · subst hc
      rw [linkSub_none rest (parseLink_eq_none rest hrest), ih hrest]
    · rw [linkSub_emit c rest hc, ih hrest]

/-- C5: the renderer never throws — each pipeline stage is a total
function of the input text (`renderPipeline` is total by construction) —
and malformed markdown degrades to literal text: a text with no adjacent
star pair is left unchanged by the bold rewrite, an unmatched `**` opener
(no adjacent star pair after it) is left literally in place, and a text
with no `]` (hence no completable `[label](url)` token) is left unchanged
by the link rewrite. -/
theorem claim_C5 :
    (∀ s : List Char, ¬ (['*', '*'] <:+: s) → boldSub s = s) ∧
    (∀ a b : List Char, '*' ∉ a → ¬ (['*', '*'] <:+: b) →
      boldSub (a ++ '*' :: '*' :: b) = a ++ '*' :: '*' :: b) ∧
    (∀ s : List Char, ']' ∉ s → linkSub s = s) := by
  refine ⟨boldSub_id, ?_, linkSub_id⟩
  intro a
  induction a with
  | nil =>
    intro b ha hb
    rw [List.nil_append, boldSub_stars_none b (findClose_eq_none b hb),
      boldSub_star_cons b hb]
  | cons c a2 ih =>
    intro b ha hb
    have hc : c ≠ '*' := fun hcc => ha (hcc ▸ List.mem_cons_self c a2)
    rw [List.cons_append, boldSub_emit c _ hc,
      ih b (fun hm => ha (List.mem_cons_of_mem c hm)) hb]

/-- Witness for C5 at concrete malformed inputs. -/
theorem claim_C5_witness :
    boldSub "no markdown here".data = "no markdown here".data ∧
    boldSub ("ab ".data ++ '*' :: '*' :: "unclosed".data) =
      "ab ".data ++ '*' :: '*' :: "unclosed".data ∧
    linkSub "[unclosed link(x".data = "[unclosed link(x".data :=
  ⟨claim_C5.1 "no markdown here".data (by decide),
   claim_C5.2.1 "ab ".data "unclosed".data (by decide) (by decide),
   claim_C5.2.2 "[unclosed link(x".data (by decide)⟩

/-! ### C3 infrastructure: occurrence splitting -/

theorem inf_split {α : Type} {p a b : List α} (h : p <:+: a ++ b) :
    p <:+: a ∨ p <:+: b ∨
      ∃ p1 p2, p = p1 ++ p2 ∧ p1 ≠ [] ∧ p2 ≠ [] ∧ p1 <:+ a ∧ p2 <+: b := by
  obtain ⟨s, t, hst⟩ := h
  rcases List.append_eq_append_iff.mp hst with ⟨a2, ha, hpt⟩ | ⟨c2, hsp, hb⟩
  · left
    exact ⟨s, a2, by rw [ha]⟩
  · rcases List.append_eq_append_iff.mp hsp with ⟨w, ha2, hp⟩ | ⟨s2, hs2, hc2⟩
    · rcases w with _ | ⟨w0, wr⟩
      · right; left
        rw [List.nil_append] at hp
        subst hp
        exact List.IsPrefix.isInfix ⟨t, hb.symm⟩
      · rcases c2 with _ | ⟨c0, cr⟩
        · left
          rw [List.append_nil] at hp
          subst hp
          exact List.IsSuffix.isInfix ⟨s, ha2.symm⟩
        · right; right
          exact ⟨w0 :: wr, c0 :: cr, hp, List.cons_ne_nil _ _, List.cons_ne_nil _ _,
            ⟨s, ha2.symm⟩, ⟨t, hb.symm⟩⟩
    · right; left
      refine ⟨s2, t, ?_⟩
      rw [hb, hc2]

theorem mem_of_head {α : Type} {l : List α} {c : α} (h : l.head? = some c) : c ∈ l := by
  cases l with
  | nil => exact Option.noConfusion h
  | cons x xs =>
    simp only [List.head?_cons, Option.some.injEq] at h
    rw [← h]
    exact List.mem_cons_self x xs

theorem pre_head {α : Type} {p1 p : List α} {c : α} (h : p1 <+: p) (hn : p1 ≠ [])
    (hc : p.head? = some c) : p1.head? = some c := by
  rcases p1 with _ | ⟨x, xs⟩
  · exact absurd rfl hn
  · obtain ⟨t, ht⟩ := h
    rw [← ht] at hc
    simpa using hc

theorem inf_sep {α : Type} {p a b : List α} {d : α} (hd : d ∉ p)
    (h : p <:+: a ++ d :: b) : p <:+: a ∨ p <:+: b := by
  rcases inf_split h with h1 | h1 | ⟨p1, p2, hp, hn1, hn2, hs, hpre⟩
  · exact Or.inl h1
  · rcases List.infix_cons_iff.mp h1 with h2 | h2
    · rcases List.prefix_cons_iff.mp h2 with h3 | ⟨t2, h3, -⟩
      · subst h3
        exact Or.inr List.nil_infix
      · exact absurd (h3 ▸ List.mem_cons_self d t2) hd
    · exact Or.inr h2
  · rcases List.prefix_cons_iff.mp hpre with h3 | ⟨t2, h3, -⟩
    · exact absurd h3 hn2
    · refine absurd ?_ hd
      rw [hp]
      exact List.mem_append_right p1 (h3 ▸ List.mem_cons_self d t2)

theorem singleton_suffix {α : Type} {a : α} {l : List α} :
    [a] <:+ l ↔ l.getLast? = some a := by
  constructor
  · rintro ⟨w, hw⟩
    rw [← hw]
    exact List.getLast?_concat w
  · intro h
    have hne : l ≠ [] := by
      intro hnil
      rw [hnil] at h
      exact Option.noConfusion h
    have := List.dropLast_append_getLast? a (Option.mem_def.mpr h)
    exact ⟨l.dropLast, this⟩

/-! ### C3 infrastructure: the escape stage -/

theorem escChar_ne_nil (c : Char) : escChar c ≠ [] := by
  unfold escChar
  split
  · decide
  · split
    · decide
    · split
      · decide
      · split
        · decide
        · split
          · decide
          · exact List.cons_ne_nil c []

theorem escChar_props (c : Char) (h : c ≠ '&') :
    ¬ (['&', 'a'] <:+: escChar c) ∧ (escChar c).getLast? ≠ some '&' := by
  unfold escChar
  rw [if_neg h]
  split
  · exact ⟨by decide, by decide⟩
  · split
    · exact ⟨by decide, by decide⟩
    · split
      · exact ⟨by decide, by decide⟩
      · split
        · exact ⟨by decide, by decide⟩
        · constructor
          · intro hm
            have hlen := List.IsInfix.length_le hm
            simp at hlen
          · intro hc
            rw [List.getLast?_singleton] at hc
            exact h (Option.some.inj hc)

theorem escChar_shape (c : Char) :
    escChar c = [c] ∨ (escChar c).head? = some '&' := by
  unfold escChar
  split
  · right; rfl
  · split
    · right; rfl
    · split
      · right; rfl
      · split
        · right; rfl
        · split
          · right; rfl
          · left; rfl

theorem esc_append (a b : List Char) :
    htmlEscape (a ++ b) = htmlEscape a ++ htmlEscape b := by
  induction a with
  | nil => rfl
  | cons c a2 ih =>
    show escChar c ++ htmlEscape (a2 ++ b) = escChar c ++ htmlEscape a2 ++ htmlEscape b
    rw [ih, List.append_assoc]

theorem esc_ne_nil {s : List Char} (h : s ≠ []) : htmlEscape s ≠ [] := by
  cases s with
  | nil => exact absurd rfl h
  | cons c rest =>
    simp only [htmlEscape]
    intro hcon
    rcases List.append_eq_nil.mp hcon with ⟨h1, -⟩
    exact escChar_ne_nil c h1

theorem esc_no_ampa : ∀ (s : List Char), '&' ∉ s → ¬ (['&', 'a'] <:+: htmlEscape s) := by
  intro s
  induction s with
  | nil =>
    intro _ hm
    simp only [htmlEscape] at hm
    rw [List.infix_nil] at hm
    exact List.noConfusion hm
  | cons c rest ih =>
    intro h hm
    have hc : c ≠ '&' := fun hcc => h (hcc ▸ List.mem_cons_self c rest)
    have hrest : '&' ∉ rest := fun hmm => h (List.mem_cons_of_mem c hmm)
    simp only [htmlEscape] at hm
    rcases inf_split hm with h1 | h1 | ⟨p1, p2, hp, hn1, hn2, hs, hpre⟩
    · exact (escChar_props c hc).1 h1
    · exact ih hrest h1
    · have hp1 : p1 = ['&'] := by
        rcases p1 with _ | ⟨x, xs⟩
        · exact absurd rfl hn1
        · rcases p2 with _ | ⟨y, ys⟩
          · exact absurd rfl hn2
          · rw [List.cons_append] at hp
            rw [List.cons.injEq] at hp
            obtain ⟨hx, hrest2⟩ := hp
            subst hx
            rcases xs with _ | ⟨x2, xs2⟩
            · rfl
            · rw [List.cons_append, List.cons.injEq] at hrest2
              obtain ⟨hx2, hrest3⟩ := hrest2
              rcases List.append_eq_nil.mp hrest3.symm with ⟨-, hys⟩
              exact absurd hys (List.cons_ne_nil y ys)
      rw [hp1] at hs
      rw [singleton_suffix] at hs
      exact (escChar_props c hc).2 hs

theorem esc_last_not_amp : ∀ (s : List Char), '&' ∉ s → ¬ (['&'] <:+ htmlEscape s) := by
  intro s
  induction s with
  | nil =>
    intro _ hm
    simp only [htmlEscape] at hm
    rw [List.suffix_nil] at hm
    exact List.noConfusion hm
  | cons c rest ih =>
    intro h hm
    have hc : c ≠ '&' := fun hcc => h (hcc ▸ List.mem_cons_self c rest)
    have hrest : '&' ∉ rest := fun hmm => h (List.mem_cons_of_mem c hmm)
    simp only [htmlEscape] at hm
    rw [singleton_suffix, List.getLast?_append] at hm
    by_cases hre : rest = []
    · subst hre
      simp only [htmlEscape, List.getLast?_nil, Option.or_none] at hm
      exact (escChar_props c hc).2 hm
    · have hnil := esc_ne_nil hre
      cases hgl : (htmlEscape rest).getLast? with
      | none => exact hnil (List.getLast?_eq_none_iff.mp hgl)
      | some x =>
        rw [hgl] at hm
        have hx : x = '&' := by simpa using hm
        exact ih hrest (singleton_suffix.mpr (by rw [hgl, hx]))

def amp5 : List Char := "&amp;".data

def amp9 : List Char := "&amp;amp;".data

theorem count_one_split {l : List Char} (h : l.count '&' = 1) :
    ∃ u v, l = u ++ '&' :: v ∧ '&' ∉ u ∧ '&' ∉ v := by
  induction l with
  | nil => simp at h
  | cons c rest ih =>
    by_cases hc : c = '&'
    · subst hc
      have hrest : rest.count '&' = 0 := by
        simp [List.count_cons] at h
        omega
      exact ⟨[], rest, rfl, by simp, List.count_eq_zero.mp hrest⟩
    · have hone : rest.count '&' = 1 := by
        simpa [List.count_cons, hc] using h
      obtain ⟨u, v, he, hu, hv⟩ := ih hone
      refine ⟨c :: u, v, by rw [he]; simp, ?_, hv⟩
      intro hm
      rcases List.mem_cons.mp hm with h1 | h1
      · exact hc h1.symm
      · exact hu h1

theorem esc_prefix_refl :
    ∀ (w : List Char), (∀ c ∈ w, escChar c = [c]) →
      ∀ (v : List Char), w <+: htmlEscape v → w <+: v := by
  intro w
  induction w with
  | nil => intro _ v _; exact List.nil_prefix
  | cons c w2 ih =>
    intro hw v hp
    cases v with
    | nil =>
      simp only [htmlEscape] at hp
      rw [List.prefix_nil] at hp
      exact absurd hp (List.cons_ne_nil _ _)
    | cons d v2 =>
      simp only [htmlEscape] at hp
      rcases escChar_shape d with hd | hd
      · rw [hd, List.singleton_append] at hp
        rw [List.cons_prefix_cons] at hp
        obtain ⟨hcd, hp2⟩ := hp
        subst hcd
        rw [List.cons_prefix_cons]
        exact ⟨rfl, ih (fun x hx => hw x (List.mem_cons_of_mem c hx)) v2 hp2⟩
      · exfalso
        obtain ⟨t, ht⟩ := hp
        rcases hdd : escChar d with _ | ⟨e0, etok⟩
        · rw [hdd] at hd
          exact Option.noConfusion hd
        · rw [hdd] at hd ht
          simp only [List.head?_cons, Option.some.injEq] at hd
          rw [List.cons_append, List.cons_append, List.cons.injEq] at ht
          have hce : c = '&' := by rw [ht.1, hd]
          have hcw : escChar c = [c] := hw c (List.mem_cons_self _ _)
          rw [hce] at hcw
          exact absurd hcw (by decide)

theorem esc_contains_amp5 (u v : List Char) :
    amp5 <:+: htmlEscape (u ++ '&' :: v) := by
  rw [esc_append]
  have he : htmlEscape ('&' :: v) = amp5 ++ htmlEscape v := rfl
  rw [he]
  exact List.infix_append' _ _ _

theorem amp9_prefix_cases {p : List Char} (h : p <+: amp9) :
    p = [] ∨ p = ['&'] ∨ ∃ q, p = '&' :: 'a' :: q := by
  rcases p with _ | ⟨c1, p1⟩
  · exact Or.inl rfl
  have h2 : c1 :: p1 <+: '&' :: 'a' :: "mp;amp;".data := h
  rw [List.cons_prefix_cons] at h2
  obtain ⟨hc1, hp1⟩ := h2
  subst hc1
  rcases p1 with _ | ⟨c2, p2⟩
  · exact Or.inr (Or.inl rfl)
  rw [List.cons_prefix_cons] at hp1
  obtain ⟨hc2, hp2⟩ := hp1
  subst hc2
  exact Or.inr (Or.inr ⟨p2, rfl⟩)

theorem esc_no_amp9 (u v : List Char) (hu : '&' ∉ u) (hv : '&' ∉ v)
    (hva : ¬ ("amp;".data <+: v)) :
    ¬ (amp9 <:+: htmlEscape (u ++ '&' :: v)) := by
  intro hm
  rw [esc_append] at hm
  have he : htmlEscape ('&' :: v) = amp5 ++ htmlEscape v := rfl
  rw [he] at hm
  rcases inf_split hm with h1 | h1 | ⟨p1, p2, hp, hn1, hn2, hs, hpre⟩
  · apply esc_no_ampa u hu
    exact List.IsInfix.trans ( List.IsPrefix.isInfix (by decide : ['&', 'a'] <+: amp9)) h1
  · rcases inf_split h1 with h2 | h2 | ⟨q1, q2, hq, hqn1, hqn2, hqs, hqp⟩
    · exact absurd ( List.IsInfix.length_le h2) (by decide)
    · apply esc_no_ampa v hv
      exact List.IsInfix.trans ( List.IsPrefix.isInfix (by decide : ['&', 'a'] <+: amp9)) h2
    · have hq1pre : q1 <+: amp9 := ⟨q2, hq.symm⟩
      rcases amp9_prefix_cases hq1pre with h3 | h3 | ⟨qq, h3⟩
      · exact hqn1 h3
      · rw [h3] at hqs
        exact absurd hqs (by decide)
      · have hlen : q1.length ≤ amp5.length := List.IsSuffix.length_le hqs
        have hd := List.suffix_iff_eq_drop.mp hqs
        rw [h3] at hd hq hlen
        rcases qq with _ | ⟨x1, qq1⟩
        · exact absurd hd (by decide)
        rcases qq1 with _ | ⟨x2, qq2⟩
        · simp [amp5] at hd
        rcases qq2 with _ | ⟨x3, qq3⟩
        · simp [amp5] at hd
        rcases qq3 with _ | ⟨x4, qq4⟩
        · -- length 5: the suffix is amp5 itself, so q2 must be "amp;"
          simp only [amp5] at hd
          simp at hd
          obtain ⟨e1, e2, e3⟩ := hd
          subst e1; subst e2; subst e3
          have hq2 : q2 = "amp;".data := by
            apply @List.append_cancel_left Char (['&', 'a', 'm', 'p', ';'] : List Char) _ _
            rw [← hq]
            rfl
          rw [hq2] at hqp
          exact hva (esc_prefix_refl "amp;".data (by decide) v hqp)
        · exfalso
          simp [amp5] at hlen
  · have hp1pre : p1 <+: amp9 := ⟨p2, hp.symm⟩
    rcases amp9_prefix_cases hp1pre with h3 | h3 | ⟨qq, h3⟩
    · exact hn1 h3
    · rw [h3] at hs
      exact esc_last_not_amp u hu hs
    · apply esc_no_ampa u hu
      have hpp : ['&', 'a'] <+: p1 := by
        rw [h3]
        exact ⟨qq, rfl⟩
      exact List.IsInfix.trans ( List.IsPrefix.isInfix hpp) ( List.IsSuffix.isInfix hs)

/-! ### C3 infrastructure: the indentation stage -/

theorem splitNl_cons (c : Char) (rest : List Char) :
    splitNl (c :: rest) =
      if c = '\n' then [] :: splitNl rest
      else
        (match splitNl rest with
         | [] => [[c]]
         | l :: ls => (c :: l) :: ls) := rfl

theorem splitNl_ne_nil : ∀ (s : List Char), splitNl s ≠ [] := by
  intro s
  cases s with
  | nil => exact List.cons_ne_nil _ _
  | cons c rest =>
    rw [splitNl_cons]
    split
    · exact List.cons_ne_nil _ _
    · split
      · exact List.cons_ne_nil _ _
      · exact List.cons_ne_nil _ _

theorem joinNl_two (l l2 : List Char) (ls : List (List Char)) :
    joinNl (l :: l2 :: ls) = l ++ '\n' :: joinNl (l2 :: ls) := rfl

theorem joinNl_splitNl : ∀ (s : List Char), joinNl (splitNl s) = s := by
  intro s
  induction s with
  | nil => rfl
  | cons c rest ih =>
    rw [splitNl_cons]
    by_cases hc : c = '\n'
    · rw [if_pos hc, hc]
      cases hsp : splitNl rest with
      | nil => exact absurd hsp (splitNl_ne_nil rest)
      | cons l0 ls0 =>
        rw [hsp] at ih
        rw [joinNl_two, List.nil_append, ih]
    · rw [if_neg hc]
      cases hsp : splitNl rest with
      | nil => exact absurd hsp (splitNl_ne_nil rest)
      | cons l0 ls0 =>
        rw [hsp] at ih
        cases ls0 with
        | nil =>
          show c :: l0 = c :: rest
          rw [show joinNl [l0] = l0 from rfl] at ih
          rw [ih]
        | cons l1 ls1 =>
          show joinNl ((c :: l0) :: l1 :: ls1) = c :: rest
          rw [joinNl_two, List.cons_append, ← joinNl_two, ih]

theorem join_of_mem : ∀ (L : List (List Char)) (l : List Char), l ∈ L →
    l <:+: joinNl L := by
  intro L
  induction L with
  | nil => intro l hl; exact absurd hl (List.not_mem_nil l)
  | cons l0 ls ih =>
    intro l hl
    rcases List.mem_cons.mp hl with h1 | h1
    · subst h1
      cases ls with
      | nil => exact List.infix_rfl
      | cons l1 ls1 =>
        rw [joinNl_two]
        exact List.IsPrefix.isInfix (List.prefix_append l ('\n' :: joinNl (l1 :: ls1)))
    · have hne : ls ≠ [] := by
        intro hcon
        rw [hcon] at h1
        exact List.not_mem_nil l h1
      cases ls with
      | nil => exact absurd rfl hne
      | cons l1 ls1 =>
        rw [joinNl_two]
        exact List.IsInfix.trans (List.infix_cons (ih l h1))
          ( List.IsSuffix.isInfix (List.suffix_append l0 _))

theorem inf_join {p : List Char} (hnl : '\n' ∉ p) (hne : p ≠ []) :
    ∀ (L : List (List Char)), p <:+: joinNl L → ∃ l ∈ L, p <:+: l := by
  intro L
  induction L with
  | nil =>
    intro h
    rw [show joinNl [] = [] from rfl, List.infix_nil] at h
    exact absurd h hne
  | cons l0 ls ih =>
    intro h
    cases ls with
    | nil => exact ⟨l0, List.mem_cons_self _ _, h⟩
    | cons l1 ls1 =>
      rw [joinNl_two] at h
      rcases inf_sep hnl h with h1 | h1
      · exact ⟨l0, List.mem_cons_self _ _, h1⟩
      · obtain ⟨l, hlm, hli⟩ := ih h1
        exact ⟨l, List.mem_cons_of_mem l0 hlm, hli⟩

theorem line_inf (s : List Char) {l : List Char} (h : l ∈ splitNl s) : l <:+: s := by
  have := join_of_mem (splitNl s) l h
  rw [joinNl_splitNl] at this
  exact this

theorem nbspBlock_subset : ∀ (k : Nat) (c : Char), c ∈ nbspBlock k → c ∈ "&nbsp;".data := by
  intro k
  induction k with
  | zero => intro c hc; exact absurd hc (List.not_mem_nil c)
  | succ k2 ih =>
    intro c hc
    simp only [nbspBlock] at hc
    rcases List.mem_append.mp hc with h1 | h1
    · exact h1
    · exact ih c h1

theorem nbspBlock_last : ∀ (k : Nat), 0 < k → (nbspBlock k).getLast? = some ';' := by
  intro k
  induction k with
  | zero => intro h; omega
  | succ k2 ih =>
    intro _
    simp only [nbspBlock]
    rw [List.getLast?_append]
    cases k2 with
    | zero => rfl
    | succ k3 =>
      rw [ih (Nat.succ_pos k3)]
      rfl

theorem nbspLine_eq (l : List Char) :
    nbspLine l =
      if 0 < (l.takeWhile (fun c => c = ' ')).length then
        nbspBlock (l.takeWhile (fun c => c = ' ')).length ++ l.dropWhile (fun c => c = ' ')
      else l := rfl

theorem nbspLine_pres {p l : List Char} (hsp : ' ' ∉ p) (hne : p ≠ [])
    (h : p <:+: l) : p <:+: nbspLine l := by
  rw [nbspLine_eq]
  split
  · have hsplit : l.takeWhile (fun c => c = ' ') ++ l.dropWhile (fun c => c = ' ') = l :=
      List.takeWhile_append_dropWhile (fun c => c = ' ') l
    rw [← hsplit] at h
    have hcore : p <:+: l.dropWhile (fun c => c = ' ') := by
      rcases inf_split h with h1 | h1 | ⟨p1, p2, hp, hn1, hn2, hs, hpre⟩
      · exfalso
        rcases p with _ | ⟨c, pr⟩
        · exact hne rfl
        · have hc : c ∈ l.takeWhile (fun c => c = ' ') :=
            List.IsInfix.mem (List.mem_cons_self c pr) h1
          have := List.mem_takeWhile_imp hc
          simp at this
          exact hsp (this ▸ List.mem_cons_self c pr)
      · exact h1
      · exfalso
        rcases p1 with _ | ⟨c, pr⟩
        · exact hn1 rfl
        · have hc : c ∈ l.takeWhile (fun c => c = ' ') :=
            ( List.IsSuffix.subset hs) (List.mem_cons_self c pr)
          have := List.mem_takeWhile_imp hc
          simp at this
          apply hsp
          rw [← this]
          rw [hp]
          exact List.mem_append_left p2 (List.mem_cons_self c pr)
    exact List.IsInfix.trans hcore
      ( List.IsSuffix.isInfix (List.suffix_append _ _))
  · exact h

theorem nbsp_pres {p s : List Char} (hsp : ' ' ∉ p) (hnl : '\n' ∉ p) (hne : p ≠ [])
    (h : p <:+: s) : p <:+: nbspIndent s := by
  obtain ⟨l, hlm, hli⟩ := inf_join hnl hne (splitNl s) (by rw [joinNl_splitNl]; exact h)
  have h2 : p <:+: nbspLine l := nbspLine_pres hsp hne hli
  have h3 : nbspLine l ∈ (splitNl s).map nbspLine := List.mem_map_of_mem nbspLine hlm
  exact List.IsInfix.trans h2 (join_of_mem _ _ h3)

theorem nbspLine_refl_amp9 {l : List Char} (h : amp9 <:+: nbspLine l) : amp9 <:+: l := by
  rw [nbspLine_eq] at h
  by_cases hk : 0 < (l.takeWhile (fun c => c = ' ')).length
  · rw [if_pos hk] at h
    have hcore : amp9 <:+: l.dropWhile (fun c => c = ' ') := by
      rcases inf_split h with h1 | h1 | ⟨p1, p2, hp, hn1, hn2, hs, hpre⟩
      · exfalso
        have ha : 'a' ∈ nbspBlock (l.takeWhile (fun c => c = ' ')).length :=
          ( List.IsInfix.subset h1) (by decide : 'a' ∈ amp9)
        have := nbspBlock_subset _ _ ha
        simp at this
      · exact h1
      · exfalso
        have hp1 : p1 <+: amp9 := ⟨p2, hp.symm⟩
        rcases amp9_prefix_cases hp1 with h3 | h3 | ⟨qq, h3⟩
        · exact hn1 h3
        · rw [h3, singleton_suffix, nbspBlock_last _ hk] at hs
          exact Option.noConfusion hs fun hcon => by simp at hcon
        · have ha : 'a' ∈ nbspBlock (l.takeWhile (fun c => c = ' ')).length := by
            apply List.IsSuffix.subset hs
            rw [h3]
            exact List.mem_cons_of_mem _ (List.mem_cons_self _ _)
          have := nbspBlock_subset _ _ ha
          simp at this
    exact List.IsInfix.trans hcore ( List.IsSuffix.isInfix (List.dropWhile_suffix _))
  · rw [if_neg hk] at h
    exact h

theorem nbsp_refl_amp9 {s : List Char} (h : amp9 <:+: nbspIndent s) : amp9 <:+: s := by
  obtain ⟨l2, hlm, hli⟩ := @inf_join amp9 (by decide) (by decide)
    ((splitNl s).map nbspLine) h
  obtain ⟨l, hl, hmap⟩ := List.mem_map.mp hlm
  rw [← hmap] at hli
  exact List.IsInfix.trans (nbspLine_refl_amp9 hli) (line_inf s hl)

/-! ### C3 infrastructure: crossing the inserted HTML junctions -/

theorem mem_of_last {α : Type} {l : List α} {c : α} (h : l.getLast? = some c) : c ∈ l := by
  have h2 := List.dropLast_append_getLast? c (Option.mem_def.mpr h)
  rw [← h2]
  exact List.mem_append_right _ (List.mem_singleton.mpr rfl)

theorem suffix_getLast {α : Type} {p l : List α} (h : p <:+ l) (hn : p ≠ []) :
    l.getLast? = p.getLast? := by
  obtain ⟨t, ht⟩ := h
  rw [← ht, List.getLast?_append]
  cases hp : p.getLast? with
  | none =>
    exfalso
    have := List.getLast?_isSome.mpr hn
    rw [hp] at this
    exact Bool.noConfusion this
  | some x => rfl

theorem cons_pref {α : Type} {a b : α} {l m : List α} (h : a :: l <+: b :: m) :
    a = b ∧ l <+: m := by
  obtain ⟨t, ht⟩ := h
  rw [List.cons_append, List.cons.injEq] at ht
  exact ⟨ht.1, ⟨t, ht.2⟩⟩

/-- An occurrence of `amp9` in `a ++ b` where `a` misses some character of
`amp9` and ends in a character outside `amp9` must lie inside `b`. -/
theorem amp9_jump {a b : List Char} (hm : ¬ (∀ c ∈ amp9, c ∈ a))
    (hlast : ∀ c ∈ amp9, a.getLast? ≠ some c)
    (h : amp9 <:+: a ++ b) : amp9 <:+: b := by
  rcases inf_split h with h1 | h1 | ⟨p1, p2, hp, hn1, hn2, hs, hpre⟩
  · exact absurd (fun c hc => ( List.IsInfix.subset h1) hc) hm
  · exact h1
  · exfalso
    have hpa : p1 <+: amp9 := ⟨p2, hp.symm⟩
    have hga : a.getLast? = p1.getLast? := suffix_getLast hs hn1
    cases hpl : p1.getLast? with
    | none =>
      have := List.getLast?_isSome.mpr hn1
      rw [hpl] at this
      exact Bool.noConfusion this
    | some x =>
      have hx : x ∈ amp9 := ( List.IsPrefix.subset hpa) (mem_of_last hpl)
      exact hlast x hx (by rw [hga, hpl])

/-- An occurrence of `amp9` in `a ++ b` cannot straddle the junction when
`b` starts with a character outside `amp9`. -/
theorem amp9_step {a b : List Char} (hhead : ∀ c, b.head? = some c → c ∉ amp9)
    (h : amp9 <:+: a ++ b) : amp9 <:+: a ∨ amp9 <:+: b := by
  rcases inf_split h with h1 | h1 | ⟨p1, p2, hp, hn1, hn2, hs, hpre⟩
  · exact Or.inl h1
  · exact Or.inr h1
  · exfalso
    have hp2 : p2 <:+ amp9 := ⟨p1, hp.symm⟩
    cases b with
    | nil => exact hn2 (List.prefix_nil.mp hpre)
    | cons d bs =>
      have hh : p2.head? = some d := pre_head hpre hn2 rfl
      have hd : d ∈ amp9 := ( List.IsSuffix.subset hp2) (mem_of_head hh)
      exact hhead d rfl hd

/-! ### C3 infrastructure: inversion of the scanners -/

theorem findClose_sound :
    ∀ (s inner after : List Char), findClose s = some (inner, after) →
      s = inner ++ '*' :: '*' :: after := by
  intro s
  induction s with
  | nil => intro inner after h; exact Option.noConfusion h
  | cons c rest ih =>
    intro inner after h
    rw [findClose.eq_def] at h
    split at h
    · rename_i rest2 he
      rw [List.cons.injEq] at he
      obtain ⟨h1, h2⟩ := he
      simp only [Option.some.injEq, Prod.mk.injEq] at h
      obtain ⟨h3, h4⟩ := h
      subst h1; subst h2; subst h3; subst h4
      rfl
    · exact Option.noConfusion h
    · rename_i c2 rest2 hg1 hg2 he
      rw [List.cons.injEq] at he
      obtain ⟨h1, h2⟩ := he
      subst h1; subst h2
      cases hfc : findClose rest with
      | none =>
        rw [hfc] at h
        exact Option.noConfusion h
      | some p =>
        rw [hfc] at h
        simp only [Option.map_some', Option.some.injEq, Prod.mk.injEq] at h
        obtain ⟨h3, h4⟩ := h
        subst h3; subst h4
        have := ih p.1 p.2 (by rw [hfc])
        rw [List.cons_append, ← this]
    · rename_i he
      exact absurd he (List.cons_ne_nil c rest)

theorem takeUntil_sound (stop : Char) :
    ∀ (s pre rest : List Char), takeUntil stop s = some (pre, rest) →
      s = pre ++ stop :: rest := by
  intro s
  induction s with
  | nil => intro pre rest h; exact Option.noConfusion h
  | cons c tail ih =>
    intro pre rest h
    by_cases hc : c = stop
    · simp only [takeUntil, if_pos hc, Option.some.injEq, Prod.mk.injEq] at h
      obtain ⟨h1, h2⟩ := h
      subst h1; subst h2
      rw [hc]
      rfl
    · simp only [takeUntil, if_neg hc] at h
      cases ht : takeUntil stop tail with
      | none =>
        rw [ht] at h
        exact Option.noConfusion h
      | some p =>
        rw [ht] at h
        simp only [Option.map_some', Option.some.injEq, Prod.mk.injEq] at h
        obtain ⟨h3, h4⟩ := h
        subst h3; subst h4
        have := ih p.1 p.2 (by rw [ht])
        rw [List.cons_append, ← this]

theorem parseLink_sound (s lbl url after : List Char)
    (h : parseLink s = some (lbl, url, after)) :
    s = lbl ++ ']' :: '(' :: (url ++ ')' :: after) := by
  unfold parseLink at h
  split at h
  · exact Option.noConfusion h
  · rename_i p1 lbl1 r1 heq1
    split at h
    · exact Option.noConfusion h
    · rename_i hlbl
      split at h
      · rename_i x2 r2
        split at h
        · exact Option.noConfusion h
        · rename_i p2 url1 r3 heq2
          split at h
          · exact Option.noConfusion h
          · rename_i hurl
            simp only [Option.some.injEq, Prod.mk.injEq] at h
            obtain ⟨h1, h2, h3⟩ := h
            subst h1; subst h2; subst h3
            have hs1 := takeUntil_sound ']' s lbl1 ('(' :: r2) heq1
            have hs2 := takeUntil_sound ')' r2 url1 r3 heq2
            rw [hs1, hs2]
      · exact Option.noConfusion h

/-! ### C3 infrastructure: the bold-rewrite stage -/

theorem pref_cons {α : Type} {a : α} {l m : List α} (h : l <+: m) : a :: l <+: a :: m := by
  obtain ⟨t, ht⟩ := h
  exact ⟨t, by rw [List.cons_append, ht]⟩

theorem bold_pref : ∀ (q s : List Char), '*' ∉ q → q <+: s → q <+: boldSub s := by
  intro q
  induction q with
  | nil => intro s _ _; exact List.nil_prefix
  | cons x q2 ih =>
    intro s hst h
    cases s with
    | nil => exact absurd (List.prefix_nil.mp h) (List.cons_ne_nil x q2)
    | cons c s2 =>
      obtain ⟨hxc, h2⟩ := cons_pref h
      subst hxc
      have hc : x ≠ '*' := fun hcon => hst (hcon ▸ List.mem_cons_self x q2)
      rw [boldSub_emit x s2 hc]
      exact pref_cons (ih s2 (fun hm => hst (List.mem_cons_of_mem x hm)) h2)

theorem bold_pres {p : List Char} (hst : '*' ∉ p) (hne : p ≠ []) :
    ∀ (n : Nat) (s : List Char), s.length ≤ n → p <:+: s → p <:+: boldSub s := by
  intro n
  induction n with
  | zero =>
    intro s hlen h
    rw [List.eq_nil_of_length_eq_zero (Nat.le_zero.mp hlen)] at h
    exact absurd (List.infix_nil.mp h) hne
  | succ n ih =>
    intro s hlen h
    cases s with
    | nil => exact absurd (List.infix_nil.mp h) hne
    | cons c s2 =>
      by_cases hc : c = '*'
      · subst hc
        cases s2 with
        | nil =>
          exfalso
          rcases p with _ | ⟨x, p2⟩
          · exact hne rfl
          · have hx : x ∈ ['*'] := ( List.IsInfix.subset h) (List.mem_cons_self x p2)
            rw [List.mem_singleton] at hx
            exact hst (hx ▸ List.mem_cons_self x p2)
        | cons c2 s3 =>
          by_cases hc2 : c2 = '*'
          · subst hc2
            have h3 : p <:+: s3 := by
              rcases @inf_sep Char p [] ('*' :: s3) '*' hst h with h1 | h1
              · exact absurd (List.infix_nil.mp h1) hne
              · rcases @inf_sep Char p [] s3 '*' hst h1 with h2 | h2
                · exact absurd (List.infix_nil.mp h2) hne
                · exact h2
            cases hfc : findClose s3 with
            | none =>
              rw [boldSub_stars_none s3 hfc]
              have h1 : p <:+: '*' :: s3 := by
                rcases @inf_sep Char p [] ('*' :: s3) '*' hst h with h1 | h1
                · exact absurd (List.infix_nil.mp h1) hne
                · exact h1
              exact List.infix_cons
                (ih ('*' :: s3) (by simp only [List.length_cons] at hlen ⊢; omega) h1)
            | some pr =>
              obtain ⟨inner, after⟩ := pr
              rw [boldSub_stars_some s3 inner after hfc]
              have hsound := findClose_sound s3 inner after hfc
              have hlen2 := findClose_length s3 inner after hfc
              rw [hsound] at h3
              rcases @inf_sep Char p inner ('*' :: after) '*' hst h3 with h4 | h4
              · exact List.IsInfix.trans h4
                  ⟨strongOpen, strongClose ++ boldSub after, by simp [List.append_assoc]⟩
              · rcases @inf_sep Char p [] after '*' hst h4 with h5 | h5
                · exact absurd (List.infix_nil.mp h5) hne
                · have h6 := ih after
                    (by simp only [List.length_cons] at hlen; omega) h5
                  exact List.IsInfix.trans h6
                    ( List.IsSuffix.isInfix (List.suffix_append _ _))
          · rw [boldSub_star2 c2 s3 hc2]
            have h1 : p <:+: c2 :: s3 := by
              rcases @inf_sep Char p [] (c2 :: s3) '*' hst h with h1 | h1
              · exact absurd (List.infix_nil.mp h1) hne
              · exact h1
            exact List.infix_cons
              (ih (c2 :: s3) (by simp only [List.length_cons] at hlen ⊢; omega) h1)
      · rw [boldSub_emit c s2 hc]
        rcases List.infix_cons_iff.mp h with h1 | h1
        · have hb := bold_pref p (c :: s2) hst h1
          rw [boldSub_emit c s2 hc] at hb
          exact List.IsPrefix.isInfix hb
        · exact List.infix_cons
            (ih s2 (by simp only [List.length_cons] at hlen ⊢; omega) h1)

theorem bold_pref_refl : ∀ (n : Nat) (s q : List Char), s.length ≤ n → '<' ∉ q →
    q <+: boldSub s → q <+: s := by
  intro n
  induction n with
  | zero =>
    intro s q hlen _ h
    rw [List.eq_nil_of_length_eq_zero (Nat.le_zero.mp hlen)] at h ⊢
    exact h
  | succ n ih =>
    intro s q hlen hlt h
    cases s with
    | nil => exact h
    | cons c s2 =>
      by_cases hc : c = '*'
      · subst hc
        cases s2 with
        | nil =>
          rw [boldSub_star1] at h
          exact h
        | cons c2 s3 =>
          by_cases hc2 : c2 = '*'
          · subst hc2
            cases hfc : findClose s3 with
            | none =>
              rw [boldSub_stars_none s3 hfc] at h
              cases q with
              | nil => exact List.nil_prefix
              | cons x q2 =>
                obtain ⟨hxc, h2⟩ := cons_pref h
                subst hxc
                exact pref_cons (ih ('*' :: s3) q2
                  (by simp only [List.length_cons] at hlen ⊢; omega)
                  (fun hm => hlt (List.mem_cons_of_mem _ hm)) h2)
            | some pr =>
              obtain ⟨inner, after⟩ := pr
              rw [boldSub_stars_some s3 inner after hfc] at h
              cases q with
              | nil => exact List.nil_prefix
              | cons x q2 =>
                exfalso
                have hh : (x :: q2).head? = some '<' := by
                  apply pre_head h (List.cons_ne_nil x q2)
                  rfl
                simp only [List.head?_cons, Option.some.injEq] at hh
                exact hlt (hh ▸ List.mem_cons_self x q2)
          · rw [boldSub_star2 c2 s3 hc2] at h
            cases q with
            | nil => exact List.nil_prefix
            | cons x q2 =>
              obtain ⟨hxc, h2⟩ := cons_pref h
              subst hxc
              exact pref_cons (ih (c2 :: s3) q2
                (by simp only [List.length_cons] at hlen ⊢; omega)
                (fun hm => hlt (List.mem_cons_of_mem _ hm)) h2)
      · rw [boldSub_emit c s2 hc] at h
        cases q with
        | nil => exact List.nil_prefix
        | cons x q2 =>
          obtain ⟨hxc, h2⟩ := cons_pref h
          subst hxc
          exact pref_cons (ih s2 q2
            (by simp only [List.length_cons] at hlen ⊢; omega)
            (fun hm => hlt (List.mem_cons_of_mem _ hm)) h2)

theorem bold_refl : ∀ (n : Nat) (s : List Char), s.length ≤ n →
    amp9 <:+: boldSub s → amp9 <:+: s := by
  intro n
  induction n with
  | zero =>
    intro s hlen h
    rw [List.eq_nil_of_length_eq_zero (Nat.le_zero.mp hlen)] at h
    exact absurd (List.infix_nil.mp h) (by decide)
  | succ n ih =>
    intro s hlen h
    cases s with
    | nil => exact absurd (List.infix_nil.mp h) (by decide)
    | cons c s2 =>
      by_cases hc : c = '*'
      · subst hc
        cases s2 with
        | nil =>
          rw [boldSub_star1] at h
          exact h
        | cons c2 s3 =>
          by_cases hc2 : c2 = '*'
          · subst hc2
            cases hfc : findClose s3 with
            | none =>
              rw [boldSub_stars_none s3 hfc] at h
              rcases List.infix_cons_iff.mp h with h1 | h1
              · exfalso
                rw [show amp9 = '&' :: "amp;amp;".data from rfl] at h1
                obtain ⟨hx, -⟩ := cons_pref h1
                exact absurd hx (by decide)
              · exact List.infix_cons (ih ('*' :: s3)
                  (by simp only [List.length_cons] at hlen ⊢; omega) h1)
            | some pr =>
              obtain ⟨inner, after⟩ := pr
              rw [boldSub_stars_some s3 inner after hfc] at h
              have hsound := findClose_sound s3 inner after hfc
              have hlen2 := findClose_length s3 inner after hfc
              simp only [List.append_assoc] at h
              have h1 := amp9_jump (by decide) (by decide) h
              rcases @amp9_step inner (strongClose ++ boldSub after)
                  (by intro c hcc
                      have hx : '<' = c := Option.some.inj hcc
                      rw [← hx]
                      decide) h1 with h2 | h2
              · rw [hsound]
                refine List.infix_cons (List.infix_cons ?_)
                exact List.IsInfix.trans h2
                  ( List.IsPrefix.isInfix (List.prefix_append inner _))
              · have h3 := amp9_jump (by decide) (by decide) h2
                have h4 := ih after
                  (by simp only [List.length_cons] at hlen; omega) h3
                rw [hsound]
                refine List.infix_cons (List.infix_cons ?_)
                exact List.IsInfix.trans h4
                  ( List.IsSuffix.isInfix ⟨inner ++ ['*', '*'], by simp⟩)
          · rw [boldSub_star2 c2 s3 hc2] at h
            rcases List.infix_cons_iff.mp h with h1 | h1
            · exfalso
              rw [show amp9 = '&' :: "amp;amp;".data from rfl] at h1
              obtain ⟨hx, -⟩ := cons_pref h1
              exact absurd hx (by decide)
            · exact List.infix_cons (ih (c2 :: s3)
                (by simp only [List.length_cons] at hlen ⊢; omega) h1)
      · rw [boldSub_emit c s2 hc] at h
        rcases List.infix_cons_iff.mp h with h1 | h1
        · rw [show amp9 = '&' :: "amp;amp;".data from rfl] at h1 ⊢
          obtain ⟨hx, h2⟩ := cons_pref h1
          subst hx
          have h3 := bold_pref_refl n s2 "amp;amp;".data
            (by simp only [List.length_cons] at hlen ⊢; omega) (by decide) h2
          exact List.IsPrefix.isInfix (pref_cons h3)
        · exact List.infix_cons (ih s2
            (by simp only [List.length_cons] at hlen ⊢; omega) h1)

/-! ### C3 infrastructure: the link-rewrite stage -/

theorem link_pref : ∀ (q s : List Char), '[' ∉ q → q <+: s → q <+: linkSub s := by
  intro q
  induction q with
  | nil => intro s _ _; exact List.nil_prefix
  | cons x q2 ih =>
    intro s hst h
    cases s with
    | nil => exact absurd (List.prefix_nil.mp h) (List.cons_ne_nil x q2)
    | cons c s2 =>
      obtain ⟨hxc, h2⟩ := cons_pref h
      subst hxc
      have hc : x ≠ '[' := fun hcon => hst (hcon ▸ List.mem_cons_self x q2)
      rw [linkSub_emit x s2 hc]
      exact pref_cons (ih s2 (fun hm => hst (List.mem_cons_of_mem x hm)) h2)

theorem link_pres {p : List Char} (hb1 : '[' ∉ p) (hb2 : ']' ∉ p)
    (hb3 : '(' ∉ p) (hb4 : ')' ∉ p) (hne : p ≠ []) :
    ∀ (n : Nat) (s : List Char), s.length ≤ n → p <:+: s → p <:+: linkSub s := by
  intro n
  induction n with
  | zero =>
    intro s hlen h
    rw [List.eq_nil_of_length_eq_zero (Nat.le_zero.mp hlen)] at h
    exact absurd (List.infix_nil.mp h) hne
  | succ n ih =>
    intro s hlen h
    cases s with
    | nil => exact absurd (List.infix_nil.mp h) hne
    | cons c s2 =>
      by_cases hc : c = '['
      · subst hc
        have h1 : p <:+: s2 := by
          rcases @inf_sep Char p [] s2 '[' hb1 h with h1 | h1
          · exact absurd (List.infix_nil.mp h1) hne
          · exact h1
        cases hp : parseLink s2 with
        | none =>
          rw [linkSub_none s2 hp]
          exact List.infix_cons
            (ih s2 (by simp only [List.length_cons] at hlen; omega) h1)
        | some pr =>
          obtain ⟨lbl, url, after⟩ := pr
          rw [linkSub_some s2 lbl url after hp]
          have hsound := parseLink_sound s2 lbl url after hp
          obtain ⟨hlen2, -, -⟩ := parseLink_length s2 lbl url after hp
          rw [hsound] at h1
          rcases @inf_sep Char p lbl ('(' :: (url ++ ')' :: after)) ']' hb2 h1 with h2 | h2
          · exact List.IsInfix.trans h2
              ⟨aOpen ++ url ++ aMid, aClose ++ linkSub after, by simp [List.append_assoc]⟩
          · rcases @inf_sep Char p [] (url ++ ')' :: after) '(' hb3 h2 with h3 | h3
            · exact absurd (List.infix_nil.mp h3) hne
            · rcases @inf_sep Char p url after ')' hb4 h3 with h4 | h4
              · exact List.IsInfix.trans h4
                  ⟨aOpen, aMid ++ lbl ++ aClose ++ linkSub after, by simp [List.append_assoc]⟩
              · have h5 := ih after
                  (by simp only [List.length_cons] at hlen; omega) h4
                exact List.IsInfix.trans h5
                  ( List.IsSuffix.isInfix (List.suffix_append _ _))
      · rw [linkSub_emit c s2 hc]
        rcases List.infix_cons_iff.mp h with h1 | h1
        · have hb := link_pref p (c :: s2) (fun hm => hb1 hm) h1
          rw [linkSub_emit c s2 hc] at hb
          exact List.IsPrefix.isInfix hb
        · exact List.infix_cons
            (ih s2 (by simp only [List.length_cons] at hlen ⊢; omega) h1)

theorem link_pref_refl : ∀ (n : Nat) (s q : List Char), s.length ≤ n → '<' ∉ q →
    q <+: linkSub s → q <+: s := by
  intro n
  induction n with
  | zero =>
    intro s q hlen _ h
    rw [List.eq_nil_of_length_eq_zero (Nat.le_zero.mp hlen)] at h ⊢
    exact h
  | succ n ih =>
    intro s q hlen hlt h
    cases s with
    | nil => exact h
    | cons c s2 =>
      by_cases hc : c = '['
      · subst hc
        cases hp : parseLink s2 with
        | none =>
          rw [linkSub_none s2 hp] at h
          cases q with
          | nil => exact List.nil_prefix
          | cons x q2 =>
            obtain ⟨hxc, h2⟩ := cons_pref h
            subst hxc
            exact pref_cons (ih s2 q2
              (by simp only [List.length_cons] at hlen ⊢; omega)
              (fun hm => hlt (List.mem_cons_of_mem _ hm)) h2)
        | some pr =>
          obtain ⟨lbl, url, after⟩ := pr
          rw [linkSub_some s2 lbl url after hp] at h
          cases q with
          | nil => exact List.nil_prefix
          | cons x q2 =>
            exfalso
            have hh : (x :: q2).head? = some '<' := by
              apply pre_head h (List.cons_ne_nil x q2)
              rfl
            simp only [List.head?_cons, Option.some.injEq] at hh
            exact hlt (hh ▸ List.mem_cons_self x q2)
      · rw [linkSub_emit c s2 hc] at h
        cases q with
        | nil => exact List.nil_prefix
        | cons x q2 =>
          obtain ⟨hxc, h2⟩ := cons_pref h
          subst hxc
          exact pref_cons (ih s2 q2
            (by simp only [List.length_cons] at hlen ⊢; omega)
            (fun hm => hlt (List.mem_cons_of_mem _ hm)) h2)

theorem link_refl : ∀ (n : Nat) (s : List Char), s.length ≤ n →
    amp9 <:+: linkSub s → amp9 <:+: s := by
  intro n
  induction n with
  | zero =>
    intro s hlen h
    rw [List.eq_nil_of_length_eq_zero (Nat.le_zero.mp hlen)] at h
    exact absurd (List.infix_nil.mp h) (by decide)
  | succ n ih =>
    intro s hlen h
    cases s with
    | nil => exact absurd (List.infix_nil.mp h) (by decide)
    | cons c s2 =>
      by_cases hc : c = '['
      · subst hc
        cases hp : parseLink s2 with
        | none =>
          rw [linkSub_none s2 hp] at h
          rcases List.infix_cons_iff.mp h with h1 | h1
          · exfalso
            rw [show amp9 = '&' :: "amp;amp;".data from rfl] at h1
            obtain ⟨hx, -⟩ := cons_pref h1
            exact absurd hx (by decide)
          · exact List.infix_cons (ih s2
              (by simp only [List.length_cons] at hlen ⊢; omega) h1)
        | some pr =>
          obtain ⟨lbl, url, after⟩ := pr
          rw [linkSub_some s2 lbl url after hp] at h
          have hsound := parseLink_sound s2 lbl url after hp
          obtain ⟨hlen2, -, -⟩ := parseLink_length s2 lbl url after hp
          simp only [List.append_assoc] at h
          have h1 := amp9_jump (by decide) (by decide) h
          rcases @amp9_step url (aMid ++ (lbl ++ (aClose ++ linkSub after)))
              (by intro c hcc
                  have hx : '\"' = c := Option.some.inj hcc
                  rw [← hx]
                  decide) h1 with h2 | h2
          · rw [hsound]
            refine List.infix_cons ?_
            exact List.IsInfix.trans h2 ⟨lbl ++ [']', '('], ')' :: after, by simp⟩
          · have h3 := amp9_jump (by decide) (by decide) h2
            rcases @amp9_step lbl (aClose ++ linkSub after)
                (by intro c hcc
                    have hx : '<' = c := Option.some.inj hcc
                    rw [← hx]
                    decide) h3 with h4 | h4
            · rw [hsound]
              refine List.infix_cons ?_
              exact List.IsInfix.trans h4
                ( List.IsPrefix.isInfix (List.prefix_append lbl _))
            · have h5 := amp9_jump (by decide) (by decide) h4
              have h6 := ih after
                (by simp only [List.length_cons] at hlen; omega) h5
              rw [hsound]
              refine List.infix_cons ?_
              exact List.IsInfix.trans h6
                ( List.IsSuffix.isInfix ⟨lbl ++ (']' :: '(' :: (url ++ [')'])), by simp⟩)
      · rw [linkSub_emit c s2 hc] at h
        rcases List.infix_cons_iff.mp h with h1 | h1
        · rw [show amp9 = '&' :: "amp;amp;".data from rfl] at h1 ⊢
          obtain ⟨hx, h2⟩ := cons_pref h1
          subst hx
          have h3 := link_pref_refl n s2 "amp;amp;".data
            (by simp only [List.length_cons] at hlen ⊢; omega) (by decide) h2
          exact List.IsPrefix.isInfix (pref_cons h3)
        · exact List.infix_cons (ih s2
            (by simp only [List.length_cons] at hlen ⊢; omega) h1)

/-! ### C3 infrastructure: the line-break stage and the HTML shell -/

theorem brNl_cons (c : Char) (rest : List Char) :
    brNl (c :: rest) =
      if c = '\n' then "<br>\n".data ++ brNl rest else c :: brNl rest := rfl

theorem br_pref : ∀ (q s : List Char), '\n' ∉ q → q <+: s → q <+: brNl s := by
  intro q
  induction q with
  | nil => intro s _ _; exact List.nil_prefix
  | cons x q2 ih =>
    intro s hst h
    cases s with
    | nil => exact absurd (List.prefix_nil.mp h) (List.cons_ne_nil x q2)
    | cons c s2 =>
      obtain ⟨hxc, h2⟩ := cons_pref h
      subst hxc
      have hc : x ≠ '\n' := fun hcon => hst (hcon ▸ List.mem_cons_self x q2)
      rw [brNl_cons, if_neg hc]
      exact pref_cons (ih s2 (fun hm => hst (List.mem_cons_of_mem x hm)) h2)

theorem br_pres {p : List Char} (hnl : '\n' ∉ p) :
    ∀ (s : List Char), p <:+: s → p <:+: brNl s := by
  intro s
  induction s with
  | nil =>
    intro h
    rw [List.infix_nil.mp h]
    exact List.nil_infix
  | cons c s2 ih =>
    intro h
    by_cases hc : c = '\n'
    · subst hc
      rw [brNl_cons, if_pos rfl]
      rcases @inf_sep Char p [] s2 '\n' hnl h with h1 | h1
      · rw [List.infix_nil.mp h1]
        exact List.nil_infix
      · exact List.IsInfix.trans (ih h1)
          ( List.IsSuffix.isInfix (List.suffix_append _ _))
    · rw [brNl_cons, if_neg hc]
      rcases List.infix_cons_iff.mp h with h1 | h1
      · have hb := br_pref p (c :: s2) hnl h1
        rw [brNl_cons, if_neg hc] at hb
        exact List.IsPrefix.isInfix hb
      · exact List.infix_cons (ih h1)

theorem br_pref_refl : ∀ (s q : List Char), '<' ∉ q → q <+: brNl s → q <+: s := by
  intro s
  induction s with
  | nil => intro q _ h; exact h
  | cons c s2 ih =>
    intro q hlt h
    by_cases hc : c = '\n'
    · subst hc
      rw [brNl_cons, if_pos rfl] at h
      cases q with
      | nil => exact List.nil_prefix
      | cons x q2 =>
        exfalso
        obtain ⟨hxc, -⟩ := cons_pref
          (show x :: q2 <+: '<' :: ("br>\n".data ++ brNl s2) from h)
        exact hlt (hxc ▸ List.mem_cons_self x q2)
    · rw [brNl_cons, if_neg hc] at h
      cases q with
      | nil => exact List.nil_prefix
      | cons x q2 =>
        obtain ⟨hxc, h2⟩ := cons_pref h
        subst hxc
        exact pref_cons (ih q2 (fun hm => hlt (List.mem_cons_of_mem _ hm)) h2)

theorem br_refl : ∀ (s : List Char), amp9 <:+: brNl s → amp9 <:+: s := by
  intro s
  induction s with
  | nil => intro h; exact absurd (List.infix_nil.mp h) (by decide)
  | cons c s2 ih =>
    intro h
    by_cases hc : c = '\n'
    · subst hc
      rw [brNl_cons, if_pos rfl] at h
      exact List.infix_cons (ih (amp9_jump (by decide) (by decide) h))
    · rw [brNl_cons, if_neg hc] at h
      rcases List.infix_cons_iff.mp h with h1 | h1
      · rw [show amp9 = '&' :: "amp;amp;".data from rfl] at h1 ⊢
        obtain ⟨hx, h2⟩ := cons_pref h1
        subst hx
        exact List.IsPrefix.isInfix
          (pref_cons (br_pref_refl s2 "amp;amp;".data (by decide) h2))
      · exact List.infix_cons (ih h1)

theorem shell_pres {p content : List Char} (h : p <:+: content) :
    p <:+: wrapShell content :=
  List.IsInfix.trans h ⟨shellPrefix.data, shellSuffix.data, rfl⟩

set_option maxRecDepth 4000 in
theorem shellPrefix_no_amp9_chars : ¬ (∀ c ∈ amp9, c ∈ shellPrefix.data) := by decide

set_option maxRecDepth 4000 in
theorem shellPrefix_last : ∀ c ∈ amp9, shellPrefix.data.getLast? ≠ some c := by decide

theorem shell_refl {content : List Char} (h : amp9 <:+: wrapShell content) :
    amp9 <:+: content := by
  unfold wrapShell at h
  rw [List.append_assoc] at h
  have h1 := amp9_jump shellPrefix_no_amp9_chars shellPrefix_last h
  rcases @amp9_step content shellSuffix.data
      (by intro c hcc
          have hx : '\n' = c := Option.some.inj hcc
          rw [← hx]
          decide) h1 with h2 | h2
  · exact h2
  · exfalso
    have := ( List.IsInfix.subset h2) (show 'a' ∈ amp9 by decide)
    exact absurd this (by decide)

/-! ### Claim C3 -/

set_option maxRecDepth 8000 in
/-- C3 counterexample: the input `"&amp;"` contains a single `'&'`, yet the
rendered output contains `"&amp;amp;"`: the escaping step cannot tell an
already-escaped ampersand from a raw one, so the claimed "never
`&amp;amp;`" fails for inputs that already contain an escape sequence. -/
theorem claim_C3_counterexample :
    ("&amp;".data.count '&' = 1) ∧
      amp9 <:+: wrapShell (renderPipeline "&amp;".data) := by
  constructor
  · decide
  · decide

/-- C3 (amended): HTML-escaping is applied exactly once and before the
markdown rewrites.  For every input text containing a single `'&'` that is
not part of an already-escaped `"&amp;"` sequence, the rendered output
(`wrapShell (renderPipeline t)`, lines 112-159 of
`generate_review_email_html`) contains `"&amp;"` and never contains
`"&amp;amp;"`.  (The original claim, quantified over all inputs with a
single `'&'`, fails on inputs such as `"&amp;"`; see
`claim_C3_counterexample`.) -/
theorem claim_C3 (t : List Char) (h1 : t.count '&' = 1) (h2 : ¬ (amp5 <:+: t)) :
    amp5 <:+: wrapShell (renderPipeline t) ∧
      ¬ (amp9 <:+: wrapShell (renderPipeline t)) := by
  obtain ⟨u, v, ht, hu, hv⟩ := count_one_split h1
  constructor
  · have e1 : amp5 <:+: htmlEscape t := by
      rw [ht]
      exact esc_contains_amp5 u v
    have e2 : amp5 <:+: nbspIndent (htmlEscape t) :=
      nbsp_pres (by decide) (by decide) (by decide) e1
    have e3 : amp5 <:+: boldSub (nbspIndent (htmlEscape t)) :=
      bold_pres (by decide) (by decide) (nbspIndent (htmlEscape t)).length _ le_rfl e2
    have e4 : amp5 <:+: linkSub (boldSub (nbspIndent (htmlEscape t))) :=
      link_pres (by decide) (by decide) (by decide) (by decide) (by decide)
        (boldSub (nbspIndent (htmlEscape t))).length _ le_rfl e3
    have e5 : amp5 <:+: brNl (linkSub (boldSub (nbspIndent (htmlEscape t)))) :=
      br_pres (by decide) _ e4
    exact shell_pres e5
  · intro hm
    have r1 : amp9 <:+: brNl (linkSub (boldSub (nbspIndent (htmlEscape t)))) :=
      shell_refl hm
    have r2 : amp9 <:+: linkSub (boldSub (nbspIndent (htmlEscape t))) :=
      br_refl _ r1
    have r3 : amp9 <:+: boldSub (nbspIndent (htmlEscape t)) :=
      link_refl (boldSub (nbspIndent (htmlEscape t))).length _ le_rfl r2
    have r4 : amp9 <:+: nbspIndent (htmlEscape t) :=
      bold_refl (nbspIndent (htmlEscape t)).length _ le_rfl r3
    have r5 : amp9 <:+: htmlEscape t := nbsp_refl_amp9 r4
    rw [ht] at r5
    have hva : ¬ ("amp;".data <+: v) := by
      intro hp
      obtain ⟨w, hw⟩ := hp
      apply h2
      rw [ht, ← hw]
      exact ⟨u, w, by simp [amp5]⟩
    exact esc_no_amp9 u v hu hv hva r5

/-- C3 witness: the amended theorem applied to the concrete input `"a & b"`. -/
theorem claim_C3_witness :
    ("a & b".data.count '&' = 1) ∧ ¬ (amp5 <:+: "a & b".data) ∧
      (amp5 <:+: wrapShell (renderPipeline "a & b".data) ∧
        ¬ (amp9 <:+: wrapShell (renderPipeline "a & b".data))) :=
  ⟨by decide, by decide, claim_C3 "a & b".data (by decide) (by decide)⟩

end Fsds